import Mathlib

/-!
Verification of the photoframe render-pipeline caching engine.

This file gives a shallow embedding, in Lean 4, of the parts of the
`photoframe` repository that the verified properties are about:

* `server/cache/__init__.py` — the async single-flight TTL cache
  (`_TTLCache.get_or_load`, `_TTLCache._schedule_refresh`) and the tiered
  `CacheManager` (`get`, `cleanup`);
* `server/cache/memory.py` — the LRU `MemoryCache`;
* `server/cache/files.py` and `server/cache/sqlite.py` — the durable tiers;
* `server/renderer/pipeline.py` — palette resolution, nearest-colour
  mapping, error-diffusion dithering, and the collision-avoiding output
  writer (`RendererPipeline._store_output`);
* `server/storage/files.py` — `safe_slug`.

Python floats (timestamps, error-diffusion buffers) are modelled as `ℚ`;
machine integers as `ℤ`/`ℕ`.  Mutable state is passed explicitly; the
cooperative asyncio scheduling of `get_or_load` is modelled as an explicit
event-step machine (namespace `SF` below).
-/

namespace TTL

/-- Mirrors `CacheEntry` from `server/cache/__init__.py`
(`value`, `expires_at`, `stale_at`). -/
structure CEntry (α : Type) where
  value : α
  expiresAt : ℚ
  staleAt : ℚ
  deriving Repr, DecidableEq

/-- `CacheEntry.is_fresh`: `self.expires_at > now`. -/
def CEntry.isFresh (e : CEntry α) (now : ℚ) : Bool := decide (e.expiresAt > now)

/-- `CacheEntry.is_stale`: `self.stale_at > now`. -/
def CEntry.isStale (e : CEntry α) (now : ℚ) : Bool := decide (e.staleAt > now)

/-- The entry stored by `_TTLCache.get_or_load` (lines 83-87) and by
`_TTLCache._schedule_refresh` (lines 114-118):
`expires_at = now + max(ttl, 0.0)`, `stale_at = now + max(stale_ttl, ttl, 0.0)`. -/
def mkStoredEntry (v : α) (now ttl staleTtl : ℚ) : CEntry α :=
  { value := v
    expiresAt := now + max ttl 0
    staleAt := now + max staleTtl (max ttl 0) }

/-- Result of one *uncontended* `_TTLCache.get_or_load` call: the returned
value (or the loader's exception), the entry table afterwards for this key,
and whether `_schedule_refresh` was invoked.  `now` is the clock sample at
line 66 and `now2` the re-sample under the lock at line 78; the loader's
behaviour is the `Except` argument. -/
def getOrLoadSeq (entry : Option (CEntry α)) (now now2 : ℚ)
    (loader : Except ε α) (ttl staleTtl : ℚ) :
    Except ε (α × Option (CEntry α) × Bool) :=
  match entry with
  | some e =>
    if e.isFresh now then .ok (e.value, some e, false)
    else if e.isStale now then .ok (e.value, some e, true)
    else
      -- per-key lock acquired; re-check, then load
      match entry with
      | some e2 =>
        if e2.isFresh now2 then .ok (e2.value, entry, false)
        else
          match loader with
          | .error err => .error err
          | .ok v => .ok (v, some (mkStoredEntry v now2 ttl staleTtl), false)
      | none =>
        match loader with
        | .error err => .error err
        | .ok v => .ok (v, some (mkStoredEntry v now2 ttl staleTtl), false)
  | none =>
    match loader with
    | .error err => .error err
    | .ok v => .ok (v, some (mkStoredEntry v now2 ttl staleTtl), false)

/-- The background `_refresh` task body of `_TTLCache._schedule_refresh`
(lines 106-118): a loader exception is caught (logged) and the entry table is
left unchanged; on success the entry is replaced. -/
def refreshRun (entry : Option (CEntry α)) (loader : Except ε α)
    (now ttl staleTtl : ℚ) : Option (CEntry α) :=
  match loader with
  | .error _ => entry
  | .ok v => some (mkStoredEntry v now ttl staleTtl)

end TTL

namespace TTL

/-- **C4 (counterexample).** The claim computes `stale_at` as
`now + max(staleTtl, ttl)`; at `now = 0`, `ttl = -1`, `stale_ttl = -2` the
code stores `stale_at = 0` (because of the extra `0.0` clamp in
`max(stale_ttl, ttl, 0.0)`), not `0 + max(-2, -1) = -1`. -/
theorem storedStaleAt_ne_claimed_formula :
    (mkStoredEntry (0 : ℕ) 0 (-1) (-2)).staleAt ≠ 0 + max (-2 : ℚ) (-1) := by
  norm_num [mkStoredEntry]

/-- **C4 (amended).** Every entry stored by the TTL cache — both paths store
via `mkStoredEntry` — satisfies `stale_at ≥ expires_at`, for all `ttl` and
`stale_ttl` including `stale_ttl < ttl` and negative values, because
`expires_at = now + max(ttl, 0)` and `stale_at = now + max(stale_ttl, ttl, 0)`. -/
theorem storedEntry_staleAt_ge_expiresAt (v : ℕ) (now ttl staleTtl : ℚ) :
    (mkStoredEntry v now ttl staleTtl).staleAt ≥ (mkStoredEntry v now ttl staleTtl).expiresAt ∧
    (mkStoredEntry v now ttl staleTtl).expiresAt = now + max ttl 0 ∧
    (mkStoredEntry v now ttl staleTtl).staleAt = now + max staleTtl (max ttl 0) := by
  refine ⟨?_, rfl, rfl⟩
  simp only [mkStoredEntry, ge_iff_le, add_le_add_iff_left]
  exact le_max_right _ _

/-- **C3 (counterexample).** A loader exception can reach the caller even
though a previous value *does* exist for the key: with a stored entry whose
`stale_at = expires_at = 1` and `now = 5` the entry is expired (but still
present in `_entries`), so `get_or_load` takes the lock path, re-checks, calls
the failing loader, and propagates the exception. -/
theorem getOrLoad_error_with_previous_value :
    getOrLoadSeq (some ⟨7, 1, 1⟩) 5 5 (Except.error ()) (1 : ℚ) 1 =
      Except.error () ∧ (some (⟨7, 1, 1⟩ : CEntry ℕ)).isSome = true := by
  constructor
  · rfl
  · rfl

/-- **C3 (amended).** A loader exception reaches the caller exactly when no
*fresh-or-stale-servable* entry exists: i.e. on the path where the entry is
absent or expired at the first check and still not fresh at the under-lock
re-check — even if an expired previous value is still stored.  A loader
exception during a background stale refresh is swallowed: the stored entry is
unchanged and no exception is raised. -/
theorem getOrLoad_failure_semantics (entry : Option (CEntry ℕ))
    (now now2 ttl staleTtl : ℚ) (err : Unit) :
    (getOrLoadSeq entry now now2 (Except.error err) ttl staleTtl =
        Except.error err ↔
      ∀ e, entry = some e →
        e.isFresh now = false ∧ e.isStale now = false ∧ e.isFresh now2 = false) ∧
    refreshRun entry (Except.error err) now ttl staleTtl = entry := by
  refine ⟨?_, rfl⟩
  match entry with
  | none => simp [getOrLoadSeq]
  | some e =>
    by_cases h1 : e.isFresh now
    · simp [getOrLoadSeq, h1]
    · by_cases h2 : e.isStale now
      · simp [getOrLoadSeq, h1, h2]
      · by_cases h3 : e.isFresh now2
        · simp [getOrLoadSeq, h1, h2, h3]
        · simp [getOrLoadSeq, h1, h2, h3]

/-- Witness for `getOrLoad_failure_semantics` at a concrete expired entry. -/
theorem getOrLoad_failure_semantics_witness :
    getOrLoadSeq (some (⟨7, 1, 1⟩ : CEntry ℕ)) 5 5 (Except.error ()) 1 1 =
      Except.error () :=
  (getOrLoad_failure_semantics (some ⟨7, 1, 1⟩) 5 5 1 1 ()).1.mpr (by decide)

end TTL

namespace Pipeline

/-- A palette entry: an RGB triple of machine integers
(`server/renderer/pipeline.py`, `Color = Tuple[int, int, int]`). -/
abbrev RGB := ℕ × ℕ × ℕ

/-- A working pixel during dithering: float channels, modelled as `ℚ`. -/
abbrev RGBq := ℚ × ℚ × ℚ

/-- Squared Euclidean RGB distance, the `dist` computed inside
`_nearest_color`: `(r - pr) ** 2 + (g - pg) ** 2 + (b - pb) ** 2`. -/
def dist (c : RGBq) (p : RGB) : ℚ :=
  (c.1 - p.1) * (c.1 - p.1) + (c.2.1 - p.2.1) * (c.2.1 - p.2.1) +
    (c.2.2 - p.2.2) * (c.2.2 - p.2.2)

/-- One iteration of the `_nearest_color` loop body: keep the current best
`(best, best_dist)` unless the candidate's distance is strictly smaller
(`best = None` stands for the initial `best_dist = float("inf")`, which every
distance beats). -/
def nearestStep (c : RGBq) (acc : Option (RGB × ℚ)) (p : RGB) : Option (RGB × ℚ) :=
  match acc with
  | none => some (p, dist c p)
  | some (b, bd) => if dist c p < bd then some (p, dist c p) else some (b, bd)

/-- `_nearest_color` from `server/renderer/pipeline.py` (lines 221-232): scan
the palette keeping the entry with strictly smaller distance;
`(0, 0, 0)` if the palette is empty. -/
def nearestColor (c : RGBq) (palette : List RGB) : RGB :=
  match palette.foldl (nearestStep c) none with
  | some (b, _) => b
  | none => (0, 0, 0)

/-- Recursive presentation of the `_nearest_color` scan starting from a
current best `b`. -/
def nearestFrom (c : RGBq) (b : RGB) : List RGB → RGB
  | [] => b
  | p :: l => if dist c p < dist c b then nearestFrom c p l else nearestFrom c b l

theorem foldl_nearest_eq (c : RGBq) (l : List RGB) : ∀ b : RGB,
    l.foldl (nearestStep c) (some (b, dist c b)) =
      some (nearestFrom c b l, dist c (nearestFrom c b l)) := by
  induction l with
  | nil => intro b; simp [nearestFrom]
  | cons p l ih =>
    intro b
    by_cases h : dist c p < dist c b
    · simp only [List.foldl_cons, nearestStep, nearestFrom, h, if_true]
      exact ih p
    · simp only [List.foldl_cons, nearestStep, nearestFrom, h, if_false]
      exact ih b

theorem nearestColor_cons (c : RGBq) (b : RGB) (l : List RGB) :
    nearestColor c (b :: l) = nearestFrom c b l := by
  simp only [nearestColor, List.foldl_cons, nearestStep]
  rw [foldl_nearest_eq]

theorem nearestFrom_spec (c : RGBq) : ∀ (l : List RGB) (b : RGB),
    ∃ i, (b :: l).get? i = some (nearestFrom c b l) ∧
      (∀ j q, (b :: l).get? j = some q → dist c (nearestFrom c b l) ≤ dist c q) ∧
      (∀ j q, j < i → (b :: l).get? j = some q →
        dist c q > dist c (nearestFrom c b l)) := by
  intro l
  induction l with
  | nil =>
    intro b
    refine ⟨0, rfl, ?_, ?_⟩
    · intro j q hj
      match j, hj with
      | 0, hj =>
        simp only [List.get?_cons_zero, Option.some.injEq] at hj
        subst hj
        simp [nearestFrom]
    · intro j q hj; omega
  | cons p l ih =>
    intro b
    by_cases hlt : dist c p < dist c b
    · obtain ⟨i', hget, hle, hfirst⟩ := ih p
      refine ⟨i' + 1, ?_, ?_, ?_⟩
      · simpa [nearestFrom, hlt] using hget
      · intro j q hj
        match j, hj with
        | 0, hj =>
          simp only [List.get?_cons_zero, Option.some.injEq] at hj
          subst hj
          have h0 : (p :: l).get? 0 = some p := rfl
          have := hle 0 p h0
          simp only [nearestFrom, hlt, if_true]
          exact le_trans this (le_of_lt hlt)
        | j + 1, hj =>
          simp only [List.get?_cons_succ] at hj
          simpa [nearestFrom, hlt] using hle j q hj
      · intro j q hj hget'
        match j, hget' with
        | 0, hget' =>
          simp only [List.get?_cons_zero, Option.some.injEq] at hget'
          subst hget'
          have h0 : (p :: l).get? 0 = some p := rfl
          have := hle 0 p h0
          simp only [nearestFrom, hlt, if_true]
          exact lt_of_le_of_lt this hlt
        | j + 1, hget' =>
          simp only [List.get?_cons_succ] at hget'
          have hj' : j < i' := by omega
          simpa [nearestFrom, hlt] using hfirst j q hj' hget'
    · obtain ⟨i', hget, hle, hfirst⟩ := ih b
      have hble : dist c b ≤ dist c p := le_of_not_lt hlt
      match i', hget with
      | 0, hget =>
        simp only [List.get?_cons_zero, Option.some.injEq] at hget
        refine ⟨0, ?_, ?_, ?_⟩
        · simp [nearestFrom, hlt, ← hget]
        · intro j q hj
          match j, hj with
          | 0, hj =>
            simp only [List.get?_cons_zero, Option.some.injEq] at hj
            subst hj
            simp [nearestFrom, hlt, ← hget]
          | 1, hj =>
            simp only [List.get?_cons_succ, List.get?_cons_zero, Option.some.injEq] at hj
            subst hj
            simp only [nearestFrom, hlt, if_false]
            calc dist c (nearestFrom c b l) ≤ dist c b := by
                  rw [← hget]
              _ ≤ dist c p := hble
          | j + 2, hj =>
            simp only [List.get?_cons_succ] at hj
            simpa [nearestFrom, hlt] using hle (j + 1) q hj
        · intro j q hj; omega
      | i' + 1, hget =>
        simp only [List.get?_cons_succ] at hget
        refine ⟨i' + 2, ?_, ?_, ?_⟩
        · simpa [nearestFrom, hlt] using hget
        · intro j q hj
          match j, hj with
          | 0, hj =>
            simp only [List.get?_cons_zero, Option.some.injEq] at hj
            subst hj
            simpa [nearestFrom, hlt] using hle 0 b rfl
          | 1, hj =>
            simp only [List.get?_cons_succ, List.get?_cons_zero, Option.some.injEq] at hj
            subst hj
            have h0 := hle 0 b rfl
            simp only [nearestFrom, hlt, if_false]
            exact le_trans (by simpa [nearestFrom, hlt] using h0) hble
          | j + 2, hj =>
            simp only [List.get?_cons_succ] at hj
            simpa [nearestFrom, hlt] using hle (j + 1) q hj
        · intro j q hj hget'
          match j, hget' with
          | 0, hget' =>
            simp only [List.get?_cons_zero, Option.some.injEq] at hget'
            subst hget'
            have h0 := hfirst 0 b (by omega) rfl
            simpa [nearestFrom, hlt] using h0
          | 1, hget' =>
            simp only [List.get?_cons_succ, List.get?_cons_zero, Option.some.injEq] at hget'
            subst hget'
            have h0 := hfirst 0 b (by omega) rfl
            simp only [nearestFrom, hlt, if_false]
            exact lt_of_lt_of_le (by simpa [nearestFrom, hlt] using h0) hble
          | j + 2, hget' =>
            simp only [List.get?_cons_succ] at hget'
            have hj' : j + 1 < i' + 1 := by omega
            simpa [nearestFrom, hlt] using hfirst (j + 1) q hj' hget'

/-- **C5.** For every input pixel and every non-empty palette, `_nearest_color`
returns a palette entry of minimal squared Euclidean RGB distance, and among
the minimisers it returns the one earliest in palette order: there is an index
`i` holding the chosen colour such that no entry has strictly smaller distance
and every entry before `i` has strictly larger distance. -/
theorem nearestColor_is_first_minimum (c : RGBq) (palette : List RGB)
    (h : palette ≠ []) :
    ∃ i, palette.get? i = some (nearestColor c palette) ∧
      (∀ j q, palette.get? j = some q →
        dist c (nearestColor c palette) ≤ dist c q) ∧
      (∀ j q, j < i → palette.get? j = some q →
        dist c q > dist c (nearestColor c palette)) := by
  obtain ⟨b, l, rfl⟩ := List.exists_cons_of_ne_nil h
  rw [nearestColor_cons]
  exact nearestFrom_spec c l b

/-- Witness for `nearestColor_is_first_minimum`: the 3-colour palette and a
pixel equidistant from none of the entries; the first minimum (pure red) is
chosen. -/
theorem nearestColor_is_first_minimum_witness :
    ([(255, 255, 255), (0, 0, 0), (255, 0, 0)] : List RGB) ≠ [] ∧
    ∃ i, ([(255, 255, 255), (0, 0, 0), (255, 0, 0)] : List RGB).get? i =
        some (nearestColor (200, 30, 40) [(255, 255, 255), (0, 0, 0), (255, 0, 0)]) ∧
      (∀ j q, ([(255, 255, 255), (0, 0, 0), (255, 0, 0)] : List RGB).get? j = some q →
        dist (200, 30, 40) (nearestColor (200, 30, 40)
          [(255, 255, 255), (0, 0, 0), (255, 0, 0)]) ≤ dist (200, 30, 40) q) ∧
      (∀ j q, j < i →
        ([(255, 255, 255), (0, 0, 0), (255, 0, 0)] : List RGB).get? j = some q →
        dist (200, 30, 40) q > dist (200, 30, 40) (nearestColor (200, 30, 40)
          [(255, 255, 255), (0, 0, 0), (255, 0, 0)])) :=
  ⟨by decide,
   nearestColor_is_first_minimum (200, 30, 40)
     [(255, 255, 255), (0, 0, 0), (255, 0, 0)] (by decide)⟩

end Pipeline

namespace Pipeline

/-- The `"3"` / `"tri"` preset of `EINK_PALETTES`. -/
def PALETTE3 : List RGB := [(255, 255, 255), (0, 0, 0), (255, 0, 0)]

/-- The `"4"` preset of `EINK_PALETTES`. -/
def PALETTE4 : List RGB := [(255, 255, 255), (0, 0, 0), (255, 0, 0), (255, 255, 0)]

/-- The `"7"` preset of `EINK_PALETTES`. -/
def PALETTE7 : List RGB :=
  [(255, 255, 255), (0, 0, 0), (255, 0, 0), (255, 255, 0),
   (0, 128, 0), (0, 0, 200), (240, 128, 48)]

/-- The `"8"` preset of `EINK_PALETTES`. -/
def PALETTE8 : List RGB :=
  [(255, 255, 255), (0, 0, 0), (255, 0, 0), (255, 255, 0),
   (0, 150, 0), (0, 0, 200), (240, 128, 48), (120, 0, 140)]

/-- `EINK_PALETTES` from `server/renderer/pipeline.py` (lines 22-45), as an
association list in declaration order. -/
def EINK_PALETTES : List (String × List RGB) :=
  [("3", PALETTE3), ("tri", PALETTE3), ("4", PALETTE4), ("7", PALETTE7), ("8", PALETTE8)]

/-- `ALIAS_PALETTES` from `server/renderer/pipeline.py` (lines 47-52). -/
def ALIAS_PALETTES : List (String × String) :=
  [("inky3", "3"), ("inky4", "4"), ("inky7", "7"), ("inky8", "8")]

/-- Python's `str.lower()` (character-wise ASCII lowering). -/
def strLower (s : String) : String := String.mk (s.data.map Char.toLower)

/-- Python's `str.startswith(pre)`. -/
def strStartsWith (s pre : String) : Bool := pre.data.isPrefixOf s.data

/-- `_resolve_palette`: `key = ALIAS_PALETTES.get(name.lower(), name.lower())`
then `EINK_PALETTES.get(key, EINK_PALETTES["7"])`. -/
def resolvePalette (name : String) : List RGB :=
  let key := (ALIAS_PALETTES.lookup (strLower name)).getD (strLower name)
  (EINK_PALETTES.lookup key).getD PALETTE7

/-- The Floyd–Steinberg kernel `FLOYD_STEINBERG` (dx, dy, ratio). -/
def FLOYD_STEINBERG : List (ℤ × ℤ × ℚ) :=
  [(1, 0, 7/16), (-1, 1, 3/16), (0, 1, 5/16), (1, 1, 1/16)]

/-- The Atkinson kernel `ATKINSON`. -/
def ATKINSON : List (ℤ × ℤ × ℚ) :=
  [(1, 0, 1/8), (2, 0, 1/8), (-1, 1, 1/8), (0, 1, 1/8), (1, 1, 1/8), (0, 2, 1/8)]

/-- `_clamp`: `min(255.0, max(0.0, value))`. -/
def clamp (v : ℚ) : ℚ := min 255 (max 0 v)

/-- Integer RGB pixel viewed as a float triple. -/
def toQ (p : RGB) : RGBq := ((p.1 : ℚ), (p.2.1 : ℚ), (p.2.2 : ℚ))

/-- `_map_palette`: map every pixel to its nearest palette colour. -/
def mapPalette (img : List (List RGB)) (palette : List RGB) : List (List RGB) :=
  img.map (fun row => row.map (fun p => nearestColor (toQ p) palette))

/-- The mutable per-pixel float buffer of `_error_diffuse`. -/
abbrev Buffer := List (List RGBq)

/-- `buffer[y][x]` (out-of-range reads never occur in the algorithm; the
default is arbitrary). -/
def get2d (buf : Buffer) (x y : ℕ) : RGBq :=
  ((buf.get? y).bind (fun row => row.get? x)).getD (0, 0, 0)

/-- Replace the element at one index, identity if out of range. -/
def modAt (f : α → α) : ℕ → List α → List α
  | _, [] => []
  | 0, a :: l => f a :: l
  | n + 1, a :: l => a :: modAt f n l

/-- `buffer[ny][nx][channel] += d[channel]` for the three channels. -/
def add2d (buf : Buffer) (x y : ℕ) (d : RGBq) : Buffer :=
  modAt (fun row => modAt
    (fun q => (q.1 + d.1, q.2.1 + d.2.1, q.2.2 + d.2.2)) x row) y buf

/-- The body of the `_error_diffuse` double loop for one pixel `(x, y)`:
clamp the accumulated value, quantise with `_nearest_color`, emit the chosen
colour, and diffuse the residual to in-bounds neighbours per the kernel. -/
def diffusePixel (palette : List RGB) (kernel : List (ℤ × ℤ × ℚ)) (w h : ℕ)
    (st : Buffer × List RGB) (xy : ℕ × ℕ) : Buffer × List RGB :=
  let buf := st.1
  let x := xy.1
  let y := xy.2
  let oldp := get2d buf x y
  let old : RGBq := (clamp oldp.1, clamp oldp.2.1, clamp oldp.2.2)
  let nc := nearestColor old palette
  let err : RGBq := (old.1 - (nc.1 : ℚ), old.2.1 - (nc.2.1 : ℚ), old.2.2 - (nc.2.2 : ℚ))
  let buf' := kernel.foldl
    (fun b d =>
      let nx : ℤ := (x : ℤ) + d.1
      let ny : ℤ := (y : ℤ) + d.2.1
      if 0 ≤ nx ∧ nx < (w : ℤ) ∧ 0 ≤ ny ∧ ny < (h : ℤ) then
        add2d b nx.toNat ny.toNat (err.1 * d.2.2, err.2.1 * d.2.2, err.2.2 * d.2.2)
      else b)
    buf
  (buf', nc :: st.2)

/-- The row-major pixel order of the `for y: for x:` loops. -/
def rowMajor (w h : ℕ) : List (ℕ × ℕ) :=
  (List.range h).flatMap (fun y => (List.range w).map (fun x => (x, y)))

/-- Reassemble a row-major flat pixel list into rows of width `w`.  The
first argument is recursion fuel: with `w > 0` each step consumes at least
one pixel, so fuel equal to the list length always suffices. -/
def chunkRows (w : ℕ) : ℕ → List RGB → List (List RGB)
  | _, [] => []
  | 0, _ :: _ => []
  | fuel + 1, a :: l =>
    if w = 0 then [] else ((a :: l).take w) :: chunkRows w fuel ((a :: l).drop w)

/-- `_error_diffuse` from `server/renderer/pipeline.py` (lines 251-272):
row-major error diffusion over a float buffer initialised from the image. -/
def errorDiffuse (img : List (List RGB)) (palette : List RGB)
    (kernel : List (ℤ × ℤ × ℚ)) : List (List RGB) :=
  let h := img.length
  let w := ((img.head?).map List.length).getD 0
  let buf0 : Buffer := img.map (fun row => row.map toQ)
  let res := (rowMajor w h).foldl (diffusePixel palette kernel w h) (buf0, [])
  chunkRows w res.2.reverse.length res.2.reverse

/-- `apply_palette` from `server/renderer/pipeline.py` (lines 275-282). -/
def applyPalette (img : List (List RGB)) (paletteName dither : String) :
    List (List RGB) :=
  let palette := resolvePalette paletteName
  let mode := strLower dither
  if mode = "none" ∨ mode = "off" ∨ mode = "false" then mapPalette img palette
  else if strStartsWith mode "atk" then errorDiffuse img palette ATKINSON
  else errorDiffuse img palette FLOYD_STEINBERG

end Pipeline

namespace Pipeline

theorem nearestFrom_mem (c : RGBq) : ∀ (l : List RGB) (b : RGB),
    nearestFrom c b l ∈ b :: l := by
  intro l
  induction l with
  | nil => intro b; simp [nearestFrom]
  | cons p l ih =>
    intro b
    by_cases h : dist c p < dist c b
    · simp only [nearestFrom, h, if_true]
      exact List.mem_cons_of_mem b (ih p)
    · simp only [nearestFrom, h, if_false]
      rcases List.mem_cons.mp (ih b) with h' | h'
      · simp [h']
      · exact List.mem_cons_of_mem _ (List.mem_cons_of_mem _ h')

theorem nearestColor_mem (c : RGBq) (palette : List RGB) (h : palette ≠ []) :
    nearestColor c palette ∈ palette := by
  obtain ⟨b, l, rfl⟩ := List.exists_cons_of_ne_nil h
  rw [nearestColor_cons]
  exact nearestFrom_mem c l b

theorem lookup_prop {β : Type} (P : β → Prop) :
    ∀ (l : List (String × β)), (∀ kv ∈ l, P kv.2) →
      ∀ k v, l.lookup k = some v → P v := by
  intro l
  induction l with
  | nil => intro _ k v h; simp [List.lookup] at h
  | cons kv l ih =>
    intro hall k v h
    obtain ⟨k', b⟩ := kv
    by_cases hk : k == k'
    · simp only [List.lookup, hk, Option.some.injEq] at h
      exact h ▸ hall (k', b) (by simp)
    · simp only [List.lookup, hk] at h
      exact ih (fun kv' h' => hall kv' (List.mem_cons_of_mem _ h')) k v h

theorem resolvePalette_ne_nil (name : String) : resolvePalette name ≠ [] := by
  unfold resolvePalette
  cases hE : EINK_PALETTES.lookup
      ((ALIAS_PALETTES.lookup (strLower name)).getD (strLower name)) with
  | none => simp [hE, PALETTE7]
  | some pal =>
    simp only [hE, Option.getD_some]
    exact lookup_prop (fun v => v ≠ []) EINK_PALETTES (by decide) _ pal hE

theorem diffuse_fold_mem (palette : List RGB) (kernel : List (ℤ × ℤ × ℚ))
    (w h : ℕ) (hpal : palette ≠ []) :
    ∀ (idxs : List (ℕ × ℕ)) (st : Buffer × List RGB),
      (∀ q ∈ st.2, q ∈ palette) →
      ∀ q ∈ (idxs.foldl (diffusePixel palette kernel w h) st).2, q ∈ palette := by
  intro idxs
  induction idxs with
  | nil => intro st hst q hq; exact hst q hq
  | cons xy idxs ih =>
    intro st hst q hq
    refine ih _ ?_ q hq
    intro q' hq'
    simp only [diffusePixel] at hq'
    rcases List.mem_cons.mp hq' with h' | h'
    · rw [h']; exact nearestColor_mem _ _ hpal
    · exact hst q' h'

theorem chunkRows_subset (w : ℕ) : ∀ (fuel : ℕ) (l : List RGB),
    ∀ row ∈ chunkRows w fuel l, ∀ q ∈ row, q ∈ l := by
  intro fuel
  induction fuel with
  | zero =>
    intro l row hrow q hq
    cases l with
    | nil => simp [chunkRows] at hrow
    | cons a l => simp [chunkRows] at hrow
  | succ fuel ih =>
    intro l row hrow q hq
    cases l with
    | nil => simp [chunkRows] at hrow
    | cons a l =>
      by_cases hw : w = 0
      · simp [chunkRows, hw] at hrow
      · simp only [chunkRows, hw, if_false] at hrow
        rcases List.mem_cons.mp hrow with h' | h'
        · exact List.take_subset _ _ (h' ▸ hq)
        · exact List.drop_subset _ _ (ih _ row h' q hq)

/-- **C6.** `apply_palette` is total on arbitrary palette and dither names:
an unknown palette name resolves to the 7-colour preset, an unknown dither
mode falls back to Floyd–Steinberg error diffusion, and every pixel of the
output is drawn from the resolved palette. -/
theorem applyPalette_fallbacks_and_membership :
    (∀ name : String,
      ALIAS_PALETTES.lookup (strLower name) = none →
      EINK_PALETTES.lookup (strLower name) = none →
      resolvePalette name = PALETTE7) ∧
    (∀ (img : List (List RGB)) (name mode : String),
      strLower mode ≠ "none" → strLower mode ≠ "off" → strLower mode ≠ "false" →
      strStartsWith (strLower mode) "atk" = false →
      applyPalette img name mode =
        errorDiffuse img (resolvePalette name) FLOYD_STEINBERG) ∧
    (∀ (img : List (List RGB)) (name mode : String),
      ∀ q ∈ (applyPalette img name mode).flatten, q ∈ resolvePalette name) := by
  refine ⟨?_, ?_, ?_⟩
  · intro name hA hE
    unfold resolvePalette
    simp [hA, hE]
  · intro img name mode h1 h2 h3 h4
    simp only [applyPalette]
    simp [h1, h2, h3, h4]
  · intro img name mode q hq
    have hpal := resolvePalette_ne_nil name
    simp only [applyPalette] at hq
    split at hq
    · -- nearest-colour mapping branch
      simp only [mapPalette, List.mem_flatten, List.mem_map] at hq
      obtain ⟨row', ⟨row, _, rfl⟩, hq⟩ := hq
      obtain ⟨p, _, rfl⟩ := List.mem_map.mp hq
      exact nearestColor_mem _ _ hpal
    · split at hq
      · -- Atkinson branch
        simp only [errorDiffuse, List.mem_flatten] at hq
        obtain ⟨row, hrow, hq⟩ := hq
        have := chunkRows_subset _ _ _ row hrow q hq
        rw [List.mem_reverse] at this
        exact diffuse_fold_mem _ _ _ _ hpal _ _ (by simp) q this
      · -- Floyd–Steinberg branch
        simp only [errorDiffuse, List.mem_flatten] at hq
        obtain ⟨row, hrow, hq⟩ := hq
        have := chunkRows_subset _ _ _ row hrow q hq
        rw [List.mem_reverse] at this
        exact diffuse_fold_mem _ _ _ _ hpal _ _ (by simp) q this

unseal Rat.add Rat.sub Rat.mul Rat.inv in
/-- Witness for `applyPalette_fallbacks_and_membership`: the unknown palette
name `"unknown-palette"` resolves to the 7-colour preset, the unknown dither
mode `"bogus"` routes to Floyd–Steinberg, and on a concrete 1×2 image the
output pixel `(0, 0, 0)` is in the resolved palette. -/
theorem applyPalette_fallbacks_witness :
    resolvePalette "unknown-palette" = PALETTE7 ∧
    applyPalette [[(0, 0, 0), (255, 255, 255)]] "unknown-palette" "bogus" =
      errorDiffuse [[(0, 0, 0), (255, 255, 255)]]
        (resolvePalette "unknown-palette") FLOYD_STEINBERG ∧
    ((0, 0, 0) : RGB) ∈ resolvePalette "unknown-palette" :=
  ⟨applyPalette_fallbacks_and_membership.1 "unknown-palette" (by decide) (by decide),
   applyPalette_fallbacks_and_membership.2.1 [[(0, 0, 0), (255, 255, 255)]]
     "unknown-palette" "bogus" (by decide) (by decide) (by decide) (by decide),
   applyPalette_fallbacks_and_membership.2.2 [[(0, 0, 0), (255, 255, 255)]]
     "unknown-palette" "bogus" (0, 0, 0) (by decide)⟩

end Pipeline

namespace Mem

/-- Payload values stored in cache backends (`Any` in Python): raw bytes, or
the `Path` of the stored PNG for the files tier. -/
inductive PayloadV
  | bytes (b : List ℕ)
  | filePath (ns key : String)
  deriving Repr, DecidableEq

/-- `CacheEntry` from `server/cache/models.py` (`ns` models the `namespace`
field; `namespace` is a Lean keyword). -/
structure Entry where
  ns : String
  key : String
  payload : PayloadV
  metadata : List (String × String)
  createdAt : ℚ
  expiresAt : Option ℚ
  deriving Repr, DecidableEq

/-- `CacheEntry.is_expired`: `False` when `expires_at` is `None`, else
`now >= expires_at`. -/
def Entry.isExpired (e : Entry) (now : ℚ) : Bool :=
  match e.expiresAt with
  | none => false
  | some t => decide (now ≥ t)

/-- `MemoryCacheConfig` from `server/cache/models.py`. -/
structure MemoryCacheConfig where
  enabled : Bool
  maxItems : ℤ
  defaultTtl : Option ℤ
  deriving Repr, DecidableEq

/-- The state of a `MemoryCache` (`server/cache/memory.py`): the flags fixed
at construction plus the `OrderedDict` of entries, kept as an association
list whose *front* is the least recently used end (`popitem(last=False)`)
and whose *back* is the most recently used end (`move_to_end`). -/
structure MemoryCache where
  enabled : Bool
  maxItems : ℕ
  defaultTtl : Option ℤ
  entries : List ((String × String) × Entry)
  deriving Repr, DecidableEq

/-- `MemoryCache.__init__`: `_enabled = config.enabled and config.max_items > 0`,
`_max_items = max(0, config.max_items)`, empty `OrderedDict`. -/
def mkMemoryCache (cfg : MemoryCacheConfig) : MemoryCache :=
  { enabled := cfg.enabled && decide (0 < cfg.maxItems)
    maxItems := cfg.maxItems.toNat
    defaultTtl := cfg.defaultTtl
    entries := [] }

/-- `MemoryCache._expiry`. -/
def expiry (defaultTtl : Option ℤ) (ttl : Option ℤ) (now : ℚ) : Option ℚ :=
  let t := match ttl with | none => defaultTtl | some v => some v
  match t with
  | none => none
  | some v => if v ≤ 0 then none else some (now + (v : ℚ))

/-- The `while len(self._entries) > self._max_items: popitem(last=False)`
loop of `_evict_unlocked`: repeatedly drop the least-recently-used front. -/
def evictLoop (maxItems : ℕ) : List ((String × String) × Entry) →
    List ((String × String) × Entry)
  | [] => []
  | a :: l => if (a :: l).length > maxItems then evictLoop maxItems l else a :: l

/-- `MemoryCache._evict_unlocked`: clear everything when `max_items <= 0`,
else run the eviction loop. -/
def evictUnlocked (maxItems : ℕ) (l : List ((String × String) × Entry)) :
    List ((String × String) × Entry) :=
  if maxItems = 0 then [] else evictLoop maxItems l

/-- Dictionary lookup `self._entries.get(cache_key)`. -/
def lookupKey (s : MemoryCache) (ck : String × String) : Option Entry :=
  (s.entries.find? (fun kv => decide (kv.1 = ck))).map (fun kv => kv.2)

/-- `MemoryCache.store_entry`: no-op returning the entry when disabled; else
insert/update under the key, move to the most-recently-used end, evict. -/
def storeEntry (s : MemoryCache) (e : Entry) : Entry × MemoryCache :=
  if s.enabled = false then (e, s)
  else
    let ck := (e.ns, e.key)
    let entries := (s.entries.filter (fun kv => decide (kv.1 ≠ ck))) ++ [(ck, e)]
    (e, { s with entries := evictUnlocked s.maxItems entries })

/-- `MemoryCache.store`: build the `CacheEntry` with `_expiry` and insert it
via `store_entry`. -/
def store (s : MemoryCache) (ns key : String) (payload : PayloadV)
    (ttl : Option ℤ) (metadata : List (String × String)) (now : ℚ) :
    Entry × MemoryCache :=
  storeEntry s ⟨ns, key, payload, metadata, now, expiry s.defaultTtl ttl now⟩

/-- `MemoryCache.get`: `None` when disabled/absent; pop and miss when
expired; else promote to most recently used and return the entry. -/
def get (s : MemoryCache) (ns key : String) (now : ℚ) :
    Option Entry × MemoryCache :=
  if s.enabled = false then (none, s)
  else
    let ck := (ns, key)
    match lookupKey s ck with
    | none => (none, s)
    | some e =>
      if e.isExpired now then
        (none, { s with entries := s.entries.filter (fun kv => decide (kv.1 ≠ ck)) })
      else
        (some e, { s with entries :=
          (s.entries.filter (fun kv => decide (kv.1 ≠ ck))) ++ [(ck, e)] })

/-- `MemoryCache.invalidate`. -/
def invalidate (s : MemoryCache) (ns : String) (key : Option String) :
    ℕ × MemoryCache :=
  if s.enabled = false then (0, s)
  else
    match key with
    | some k =>
      let ck := (ns, k)
      if s.entries.any (fun kv => decide (kv.1 = ck)) then
        (1, { s with entries := s.entries.filter (fun kv => decide (kv.1 ≠ ck)) })
      else (0, s)
    | none =>
      ((s.entries.filter (fun kv => decide (kv.1.1 = ns))).length,
       { s with entries := s.entries.filter (fun kv => decide (kv.1.1 ≠ ns)) })

/-- `MemoryCache.cleanup`: remove the expired entries and return their count. -/
def cleanup (s : MemoryCache) (now : ℚ) : ℕ × MemoryCache :=
  if s.enabled = false then (0, s)
  else
    ((s.entries.filter (fun kv => kv.2.isExpired now)).length,
     { s with entries := s.entries.filter (fun kv => !(kv.2.isExpired now)) })

end Mem

namespace Mem

theorem evictLoop_length_le (maxItems : ℕ) :
    ∀ l : List ((String × String) × Entry),
      (evictLoop maxItems l).length ≤ maxItems := by
  intro l
  induction l with
  | nil => simp [evictLoop]
  | cons a l ih =>
    rw [evictLoop]
    by_cases h : (a :: l).length > maxItems
    · rw [if_pos h]; exact ih
    · rw [if_neg h]; exact Nat.le_of_not_lt h

theorem evictLoop_of_le (maxItems : ℕ) (l : List ((String × String) × Entry))
    (h : l.length ≤ maxItems) : evictLoop maxItems l = l := by
  cases l with
  | nil => rfl
  | cons a l => rw [evictLoop, if_neg (Nat.not_lt.mpr h)]

theorem filter_eq_of_lookup_none (s : MemoryCache) (ck : String × String)
    (h : lookupKey s ck = none) :
    s.entries.filter (fun kv => decide (kv.1 ≠ ck)) = s.entries := by
  have hnone : s.entries.find? (fun kv => decide (kv.1 = ck)) = none := by
    simp only [lookupKey] at h
    cases hf : s.entries.find? (fun kv => decide (kv.1 = ck)) with
    | none => rfl
    | some kv' => rw [hf] at h; simp at h
  apply List.filter_eq_self.mpr
  intro kv hkv
  simpa using List.find?_eq_none.mp hnone kv hkv

/-- **C7.** Memory-tier LRU behaviour:
(a) after any `store_entry` on an enabled cache the entry count is at most
`max_items`; (b) inserting a fresh key into a full cache evicts exactly the
least-recently-used (front) entry and appends the new one at the
most-recently-used end; (c) a successful `get` returns the stored entry and
moves it to the most-recently-used end, leaving the other entries in order. -/
theorem memoryCache_lru :
    (∀ (s : MemoryCache) (e : Entry), s.enabled = true →
      ((storeEntry s e).2).entries.length ≤ s.maxItems) ∧
    (∀ (s : MemoryCache) (e : Entry), s.enabled = true →
      s.entries.length = s.maxItems → 0 < s.maxItems →
      lookupKey s (e.ns, e.key) = none →
      ((storeEntry s e).2).entries = s.entries.tail ++ [((e.ns, e.key), e)]) ∧
    (∀ (s : MemoryCache) (ns key : String) (now : ℚ) (e : Entry),
      s.enabled = true → lookupKey s (ns, key) = some e →
      e.isExpired now = false →
      (get s ns key now).1 = some e ∧
      (get s ns key now).2.entries =
        (s.entries.filter (fun kv => decide (kv.1 ≠ (ns, key)))) ++ [((ns, key), e)] ∧
      ((get s ns key now).2.entries).getLast? = some ((ns, key), e)) := by
  refine ⟨?_, ?_, ?_⟩
  · intro s e hs
    simp only [storeEntry, hs]
    by_cases hm : s.maxItems = 0
    · simp [evictUnlocked, hm]
    · simp only [evictUnlocked, hm, if_false, Bool.true_eq_false]
      simpa using evictLoop_length_le s.maxItems _
  · intro s e hs hlen hpos hfree
    simp only [storeEntry, hs, Bool.true_eq_false, if_false]
    rw [filter_eq_of_lookup_none s _ hfree]
    have hm : s.maxItems ≠ 0 := Nat.pos_iff_ne_zero.mp hpos
    simp only [evictUnlocked, hm, if_false]
    obtain ⟨a, l, hE⟩ : ∃ a l, s.entries = a :: l := by
      cases hsE : s.entries with
      | nil => rw [hsE] at hlen; simp at hlen; omega
      | cons a l => exact ⟨a, l, rfl⟩
    have hlen2 : (a :: l).length = s.maxItems := by rw [← hE]; exact hlen
    rw [hE]
    simp only [List.tail_cons]
    have h1 : ((a :: l) ++ [((e.ns, e.key), e)]).length > s.maxItems := by
      simp only [List.length_append, List.length_cons, List.length_nil] at hlen2 ⊢
      omega
    have h2 : (l ++ [((e.ns, e.key), e)]).length ≤ s.maxItems := by
      simp only [List.length_append, List.length_cons, List.length_nil] at hlen2 ⊢
      omega
    calc evictLoop s.maxItems ((a :: l) ++ [((e.ns, e.key), e)])
        = evictLoop s.maxItems (l ++ [((e.ns, e.key), e)]) := by
          rw [List.cons_append, evictLoop, if_pos (by simpa using h1)]
      _ = l ++ [((e.ns, e.key), e)] := evictLoop_of_le _ _ h2
  · intro s ns key now e hs hfound hexp
    refine ⟨?_, ?_, ?_⟩
    · simp [get, hs, hfound, hexp]
    · simp [get, hs, hfound, hexp]
    · simp [get, hs, hfound, hexp]

end Mem

namespace Mem

/-- A TTL-free test entry for the LRU scenario. -/
def lruE (k : String) : Entry := ⟨"lru", k, PayloadV.bytes [], [], 0, none⟩

/-- A `max_items = 3` memory tier filled with `k1`, `k2`, `k3` in order. -/
def lruS3 : MemoryCache :=
  (storeEntry (storeEntry (storeEntry
    (mkMemoryCache ⟨true, 3, none⟩) (lruE "k1")).2 (lruE "k2")).2 (lruE "k3")).2

/-- `lruS3` after accessing `k1`, which promotes it to most recently used. -/
def lruDemo : MemoryCache := (get lruS3 "lru" "k1" 0).2

/-- Witness for `memoryCache_lru`, the `max_items = 3` scenario of the claim:
after inserting `k1 k2 k3` and accessing `k1`, inserting the fourth key keeps
the count at 3, evicts exactly the least-recently-accessed `k2`, and the
earlier access had promoted `k1` to the most-recently-used end. -/
theorem memoryCache_lru_witness :
    ((storeEntry lruDemo (lruE "k4")).2).entries.length ≤ lruDemo.maxItems ∧
    ((storeEntry lruDemo (lruE "k4")).2).entries =
      lruDemo.entries.tail ++ [(("lru", "k4"), lruE "k4")] ∧
    (("lru", "k2"), lruE "k2") ∉ ((storeEntry lruDemo (lruE "k4")).2).entries ∧
    (get lruS3 "lru" "k1" 0).1 = some (lruE "k1") ∧
    ((get lruS3 "lru" "k1" 0).2.entries).getLast? = some (("lru", "k1"), lruE "k1") :=
  ⟨memoryCache_lru.1 lruDemo (lruE "k4") (by decide),
   memoryCache_lru.2.1 lruDemo (lruE "k4") (by decide) (by decide) (by decide)
     (by decide),
   by decide,
   (memoryCache_lru.2.2 lruS3 "lru" "k1" 0 (lruE "k1") (by decide) (by decide)
     (by decide)).1,
   (memoryCache_lru.2.2 lruS3 "lru" "k1" 0 (lruE "k1") (by decide) (by decide)
     (by decide)).2.2⟩

/-- **C10.** A `MemoryCache` built from a configuration with `max_items <= 0`
or `enabled = False` is fully inert: `enabled` is `False`, `store`/`store_entry`
return the constructed entry without retaining it, `get` always returns
`None`, and `invalidate` and `cleanup` always return `0`, all leaving the
state unchanged. -/
theorem memoryCache_inert (cfg : MemoryCacheConfig)
    (h : cfg.maxItems ≤ 0 ∨ cfg.enabled = false) :
    (mkMemoryCache cfg).enabled = false ∧
    (∀ e, storeEntry (mkMemoryCache cfg) e = (e, mkMemoryCache cfg)) ∧
    (∀ ns key payload ttl metadata now,
      store (mkMemoryCache cfg) ns key payload ttl metadata now =
        (⟨ns, key, payload, metadata, now, expiry cfg.defaultTtl ttl now⟩,
         mkMemoryCache cfg)) ∧
    (∀ ns key now, get (mkMemoryCache cfg) ns key now = (none, mkMemoryCache cfg)) ∧
    (∀ ns key, invalidate (mkMemoryCache cfg) ns key = (0, mkMemoryCache cfg)) ∧
    (∀ now, cleanup (mkMemoryCache cfg) now = (0, mkMemoryCache cfg)) := by
  have hen : (mkMemoryCache cfg).enabled = false := by
    rcases h with h | h
    · have h' : ¬ (0 : ℤ) < cfg.maxItems := Int.not_lt.mpr h
      simp [mkMemoryCache, h']
    · simp [mkMemoryCache, h]
  refine ⟨hen, ?_, ?_, ?_, ?_, ?_⟩
  · intro e; simp [storeEntry, hen]
  · intro ns key payload ttl metadata now
    have hd : (mkMemoryCache cfg).defaultTtl = cfg.defaultTtl := rfl
    simp [store, storeEntry, hen, hd]
  · intro ns key now; simp [get, hen]
  · intro ns key; simp [invalidate, hen]
  · intro now; simp [cleanup, hen]

/-- Witness for `memoryCache_inert` at the concrete configuration
`enabled = True, max_items = 0, default_ttl = 300`. -/
theorem memoryCache_inert_witness :
    (mkMemoryCache ⟨true, 0, some 300⟩).enabled = false ∧
    (∀ ns key now, get (mkMemoryCache ⟨true, 0, some 300⟩) ns key now =
      (none, mkMemoryCache ⟨true, 0, some 300⟩)) ∧
    (∀ e, storeEntry (mkMemoryCache ⟨true, 0, some 300⟩) e =
      (e, mkMemoryCache ⟨true, 0, some 300⟩)) :=
  ⟨(memoryCache_inert ⟨true, 0, some 300⟩ (Or.inl (by decide))).1,
   (memoryCache_inert ⟨true, 0, some 300⟩ (Or.inl (by decide))).2.2.2.1,
   (memoryCache_inert ⟨true, 0, some 300⟩ (Or.inl (by decide))).2.1⟩

end Mem

namespace Tier

open Mem (Entry PayloadV)

/-- JSON sidecar metadata of the files tier (`server/cache/files.py`):
`created_at`, `expires_at`, `metadata`.  A corrupt (unparseable) sidecar is
modelled as the fallback meta the code substitutes on `JSONDecodeError`
(`expires_at = None`, empty metadata). -/
structure FMeta where
  createdAt : ℚ
  expiresAt : Option ℚ
  metadata : List (String × String)
  deriving Repr, DecidableEq

/-- The on-disk state for one `(namespace, key)` of the files tier: the PNG
payload file and its `.json` sidecar, each independently present or absent.
`_path_for` is treated as an injective path encoding of `(namespace, key)`. -/
structure FSlot where
  png : Option (List ℕ)
  sidecar : Option FMeta
  deriving Repr, DecidableEq

/-- State of `FilesCache` (`server/cache/files.py`). -/
structure FilesCache where
  enabled : Bool
  defaultTtl : Option ℤ
  disk : List ((String × String) × FSlot)
  deriving Repr, DecidableEq

def fLookup (s : FilesCache) (ck : String × String) : Option FSlot :=
  (s.disk.find? (fun kv => decide (kv.1 = ck))).map (fun kv => kv.2)

/-- `FilesCache.get`: `None` when disabled, when either file is missing, or
when the sidecar says the entry expired (in which case both files are
deleted via `invalidate`); otherwise the `CacheEntry` whose payload is the
PNG `Path`. -/
def FilesCache.get (s : FilesCache) (ns key : String) (now : ℚ) :
    Option Entry × FilesCache :=
  if s.enabled = false then (none, s)
  else
    let ck := (ns, key)
    match fLookup s ck with
    | none => (none, s)
    | some slot =>
      match slot.png, slot.sidecar with
      | none, _ => (none, s)
      | some _, none => (none, s)
      | some _, some meta =>
        match meta.expiresAt with
        | some t =>
          if now ≥ t then
            (none, { s with disk := s.disk.filter (fun kv => decide (kv.1 ≠ ck)) })
          else
            (some ⟨ns, key, PayloadV.filePath ns key, meta.metadata,
              meta.createdAt, meta.expiresAt⟩, s)
        | none =>
          (some ⟨ns, key, PayloadV.filePath ns key, meta.metadata,
            meta.createdAt, meta.expiresAt⟩, s)

/-- The per-sidecar expiry test of `FilesCache.cleanup`:
`expires_at is not None and now >= expires_at`. -/
def fExpired (now : ℚ) (kv : (String × String) × FSlot) : Bool :=
  match kv.2.sidecar with
  | some m =>
    match m.expiresAt with
    | some t => decide (now ≥ t)
    | none => false
  | none => false

/-- `FilesCache.cleanup`: for every sidecar whose `expires_at` has passed,
unlink the PNG (counting 1 if it existed) and the sidecar (1). -/
def FilesCache.cleanup (s : FilesCache) (now : ℚ) : ℕ × FilesCache :=
  if s.enabled = false then (0, s)
  else
    let ex := s.disk.filter (fun kv => fExpired now kv)
    ((ex.map (fun kv => (match kv.2.png with | some _ => 1 | none => 0) + 1)).sum,
     { s with disk := s.disk.filter (fun kv => !(fExpired now kv)) })

/-- One row of the `cache_entries` table (`server/cache/sqlite.py`). -/
structure Row where
  payload : List ℕ
  metadata : List (String × String)
  createdAt : ℚ
  expiresAt : Option ℚ
  deriving Repr, DecidableEq

/-- State of `SqliteCache`: the single table keyed by
`(namespace, cache_key)` (its primary key). -/
structure SqliteCache where
  enabled : Bool
  defaultTtl : Option ℤ
  table : List ((String × String) × Row)
  deriving Repr, DecidableEq

def sLookup (s : SqliteCache) (ck : String × String) : Option Row :=
  (s.table.find? (fun kv => decide (kv.1 = ck))).map (fun kv => kv.2)

/-- `SqliteCache.get`: `None` when disabled or absent; expired rows are
deleted via `invalidate` and reported as a miss. -/
def SqliteCache.get (s : SqliteCache) (ns key : String) (now : ℚ) :
    Option Entry × SqliteCache :=
  if s.enabled = false then (none, s)
  else
    let ck := (ns, key)
    match sLookup s ck with
    | none => (none, s)
    | some row =>
      match row.expiresAt with
      | some t =>
        if now ≥ t then
          (none, { s with table := s.table.filter (fun kv => decide (kv.1 ≠ ck)) })
        else
          (some ⟨ns, key, PayloadV.bytes row.payload, row.metadata,
            row.createdAt, row.expiresAt⟩, s)
      | none =>
        (some ⟨ns, key, PayloadV.bytes row.payload, row.metadata,
          row.createdAt, row.expiresAt⟩, s)

/-- The row-expiry test of `SqliteCache.cleanup`:
`expires_at IS NOT NULL AND expires_at <= now`. -/
def rowExpired (now : ℚ) (kv : (String × String) × Row) : Bool :=
  match kv.2.expiresAt with
  | some t => decide (t ≤ now)
  | none => false

/-- `SqliteCache.cleanup`: delete the expired rows, returning the rowcount. -/
def SqliteCache.cleanup (s : SqliteCache) (now : ℚ) : ℕ × SqliteCache :=
  if s.enabled = false then (0, s)
  else
    ((s.table.filter (fun kv => rowExpired now kv)).length,
     { s with table := s.table.filter (fun kv => !(rowExpired now kv)) })

/-- `CacheManager` (`server/cache/__init__.py`, lines 211-292): the three
backends. -/
structure CacheManager where
  memory : Mem.MemoryCache
  files : FilesCache
  sqlite : SqliteCache
  deriving Repr, DecidableEq

/-- `CacheManager.get` (lines 240-255): ask memory, then files, then sqlite,
returning the first available entry; each tier is consulted only when its
`enabled` flag is set, and tier-internal state effects (expired-entry
deletion, LRU promotion) are carried along. -/
def CacheManager.get (m : CacheManager) (ns key : String) (now : ℚ) :
    Option Entry × CacheManager :=
  let memStep := if m.memory.enabled then Mem.get m.memory ns key now
    else (none, m.memory)
  match memStep with
  | (some e, mem') => (some e, { m with memory := mem' })
  | (none, mem') =>
    let fStep := if m.files.enabled then FilesCache.get m.files ns key now
      else (none, m.files)
    match fStep with
    | (some e, f') => (some e, { m with memory := mem', files := f' })
    | (none, f') =>
      let sStep := if m.sqlite.enabled then SqliteCache.get m.sqlite ns key now
        else (none, m.sqlite)
      match sStep with
      | (some e, s') => (some e, { m with memory := mem', files := f', sqlite := s' })
      | (none, s') => (none, { m with memory := mem', files := f', sqlite := s' })

/-- `CacheManager.cleanup` (lines 285-292): `purged = 0`, then add each
tier's cleanup count unconditionally, returning the single total. -/
def CacheManager.cleanup (m : CacheManager) (now : ℚ) : ℕ × CacheManager :=
  let p1 := Mem.cleanup m.memory now
  let p2 := FilesCache.cleanup m.files now
  let p3 := SqliteCache.cleanup m.sqlite now
  (p1.1 + p2.1 + p3.1, { memory := p1.2, files := p2.2, sqlite := p3.2 })

/-- The per-tier purge counts that would have to be returned for a caller to
observe how many entries each individual tier removed. -/
def tierCleanupCounts (m : CacheManager) (now : ℚ) : ℕ × ℕ × ℕ :=
  ((Mem.cleanup m.memory now).1, (FilesCache.cleanup m.files now).1,
   (SqliteCache.cleanup m.sqlite now).1)

end Tier

namespace Tier

theorem memGet_ite (m : CacheManager) (ns key : String) (now : ℚ) :
    (if m.memory.enabled then Mem.get m.memory ns key now else (none, m.memory)) =
      Mem.get m.memory ns key now := by
  by_cases h : m.memory.enabled
  · simp [h]
  · simp only [Bool.not_eq_true] at h
    simp [h, Mem.get]

theorem filesGet_ite (m : CacheManager) (ns key : String) (now : ℚ) :
    (if m.files.enabled then FilesCache.get m.files ns key now else (none, m.files)) =
      FilesCache.get m.files ns key now := by
  by_cases h : m.files.enabled
  · simp [h]
  · simp only [Bool.not_eq_true] at h
    simp [h, FilesCache.get]

theorem sqliteGet_ite (m : CacheManager) (ns key : String) (now : ℚ) :
    (if m.sqlite.enabled then SqliteCache.get m.sqlite ns key now else (none, m.sqlite)) =
      SqliteCache.get m.sqlite ns key now := by
  by_cases h : m.sqlite.enabled
  · simp [h]
  · simp only [Bool.not_eq_true] at h
    simp [h, SqliteCache.get]

/-- **C2 (amended).** `CacheManager.get` consults memory first, then files,
then sqlite, in that fixed order, returning the first hit — but a durable-tier
hit is *not* promoted into the memory tier: the memory state after any `get`
is exactly the state `memory.get` itself left (which never inserts). -/
theorem cacheManager_get_order_no_promotion (m : CacheManager)
    (ns key : String) (now : ℚ) :
    (∀ e mem', Mem.get m.memory ns key now = (some e, mem') →
      CacheManager.get m ns key now = (some e, { m with memory := mem' })) ∧
    (∀ mem' e f', Mem.get m.memory ns key now = (none, mem') →
      FilesCache.get m.files ns key now = (some e, f') →
      CacheManager.get m ns key now =
        (some e, { m with memory := mem', files := f' })) ∧
    (∀ mem' f' e s', Mem.get m.memory ns key now = (none, mem') →
      FilesCache.get m.files ns key now = (none, f') →
      SqliteCache.get m.sqlite ns key now = (some e, s') →
      CacheManager.get m ns key now =
        (some e, { m with memory := mem', files := f', sqlite := s' })) ∧
    (CacheManager.get m ns key now).2.memory = (Mem.get m.memory ns key now).2 := by
  have hm := memGet_ite m ns key now
  have hf := filesGet_ite m ns key now
  have hs := sqliteGet_ite m ns key now
  refine ⟨?_, ?_, ?_, ?_⟩
  · intro e mem' h
    simp only [CacheManager.get, hm, hf, hs]
    rw [h]
  · intro mem' e f' h1 h2
    simp only [CacheManager.get, hm, hf, hs]
    rw [h1, h2]
  · intro mem' f' e s' h1 h2 h3
    simp only [CacheManager.get, hm, hf, hs]
    rw [h1, h2, h3]
  · simp only [CacheManager.get, hm, hf, hs]
    rcases hMg : Mem.get m.memory ns key now with ⟨r, mem'⟩
    cases r with
    | some e => simp
    | none =>
      rcases hFg : FilesCache.get m.files ns key now with ⟨rf, f'⟩
      cases rf with
      | some e => simp [hFg]
      | none =>
        rcases hSg : SqliteCache.get m.sqlite ns key now with ⟨rs, s'⟩
        cases rs with
        | some e => simp [hFg, hSg]
        | none => simp [hFg, hSg]

/-- A manager whose memory tier is enabled but empty, while the files tier
holds a valid never-expiring entry for `("ns", "k")`. -/
def mgrC2 : CacheManager :=
  { memory := { enabled := true, maxItems := 4, defaultTtl := none, entries := [] }
    files := { enabled := true, defaultTtl := none,
               disk := [(("ns", "k"), ⟨some [1, 2], some ⟨0, none, []⟩⟩)] }
    sqlite := { enabled := true, defaultTtl := none, table := [] } }

/-- **C2 (counterexample).** A durable (files-tier) hit is not promoted into
the memory tier: after `get` returns the files-tier entry, the memory tier
still holds nothing for the key, so a subsequent `get` misses memory again. -/
theorem cacheManager_get_not_promoted :
    ((CacheManager.get mgrC2 "ns" "k" 0).1).isSome = true ∧
    Mem.lookupKey ((CacheManager.get mgrC2 "ns" "k" 0).2).memory ("ns", "k") = none ∧
    (Mem.get ((CacheManager.get mgrC2 "ns" "k" 0).2).memory "ns" "k" 0).1 = none := by
  refine ⟨by decide, by decide, by decide⟩

/-- Witness for `cacheManager_get_order_no_promotion` at `mgrC2`: the memory
tier misses, the files tier hits, the hit is returned and memory stays as
`memory.get` left it (empty). -/
theorem cacheManager_get_order_witness :
    CacheManager.get mgrC2 "ns" "k" 0 =
      (some ⟨"ns", "k", Mem.PayloadV.filePath "ns" "k", [], 0, none⟩,
       { mgrC2 with memory := mgrC2.memory, files := mgrC2.files }) ∧
    (CacheManager.get mgrC2 "ns" "k" 0).2.memory =
      (Mem.get mgrC2.memory "ns" "k" 0).2 :=
  ⟨(cacheManager_get_order_no_promotion mgrC2 "ns" "k" 0).2.1
      mgrC2.memory ⟨"ns", "k", Mem.PayloadV.filePath "ns" "k", [], 0, none⟩
      mgrC2.files (by decide) (by decide),
   (cacheManager_get_order_no_promotion mgrC2 "ns" "k" 0).2.2.2⟩

/-- **C9 (amended).** `cleanup()` runs the expiry purge on every tier
(disabled tiers contribute 0) and returns the single summed total of purged
entries across tiers; afterwards no enabled tier retains an expired entry. -/
theorem cacheManager_cleanup_total (m : CacheManager) (now : ℚ) :
    (CacheManager.cleanup m now).1 =
      (Mem.cleanup m.memory now).1 + (FilesCache.cleanup m.files now).1 +
        (SqliteCache.cleanup m.sqlite now).1 ∧
    (CacheManager.cleanup m now).2 =
      ⟨(Mem.cleanup m.memory now).2, (FilesCache.cleanup m.files now).2,
       (SqliteCache.cleanup m.sqlite now).2⟩ ∧
    (m.memory.enabled = true →
      ∀ kv ∈ ((CacheManager.cleanup m now).2).memory.entries,
        kv.2.isExpired now = false) ∧
    (m.files.enabled = true →
      ∀ kv ∈ ((CacheManager.cleanup m now).2).files.disk,
        fExpired now kv = false) ∧
    (m.sqlite.enabled = true →
      ∀ kv ∈ ((CacheManager.cleanup m now).2).sqlite.table,
        rowExpired now kv = false) := by
  refine ⟨rfl, rfl, ?_, ?_, ?_⟩
  · intro h kv hkv
    simp only [CacheManager.cleanup, Mem.cleanup, h] at hkv
    simp only [Bool.true_eq_false, if_false] at hkv
    rw [List.mem_filter] at hkv
    simpa using hkv.2
  · intro h kv hkv
    simp only [CacheManager.cleanup, FilesCache.cleanup, h] at hkv
    simp only [Bool.true_eq_false, if_false] at hkv
    rw [List.mem_filter] at hkv
    simpa using hkv.2
  · intro h kv hkv
    simp only [CacheManager.cleanup, SqliteCache.cleanup, h] at hkv
    simp only [Bool.true_eq_false, if_false] at hkv
    rw [List.mem_filter] at hkv
    simpa using hkv.2

/-- A manager where only the memory tier holds one (expired) entry. -/
def mgrLeft : CacheManager :=
  { memory := { enabled := true, maxItems := 8, defaultTtl := none,
                entries := [(("n", "a"),
                  ⟨"n", "a", Mem.PayloadV.bytes [], [], 0, some 1⟩)] }
    files := { enabled := false, defaultTtl := none, disk := [] }
    sqlite := { enabled := true, defaultTtl := none, table := [] } }

/-- A manager where only the sqlite tier holds one (expired) row. -/
def mgrRight : CacheManager :=
  { memory := { enabled := true, maxItems := 8, defaultTtl := none, entries := [] }
    files := { enabled := false, defaultTtl := none, disk := [] }
    sqlite := { enabled := true, defaultTtl := none,
                table := [(("n", "a"), ⟨[], [], 0, some 1⟩)] } }

/-- **C9 (counterexample).** `cleanup()` does not return per-tier counts:
two managers whose tiers purge `(1, 0, 0)` and `(0, 0, 1)` respectively both
return the same single number `1`, so a caller cannot observe how many
entries each individual tier removed. -/
theorem cacheManager_cleanup_not_per_tier :
    (CacheManager.cleanup mgrLeft 5).1 = (CacheManager.cleanup mgrRight 5).1 ∧
    tierCleanupCounts mgrLeft 5 ≠ tierCleanupCounts mgrRight 5 ∧
    tierCleanupCounts mgrLeft 5 = (1, 0, 0) ∧
    tierCleanupCounts mgrRight 5 = (0, 0, 1) := by
  refine ⟨by decide, by decide, by decide, by decide⟩

/-- Witness for `cacheManager_cleanup_total` at `mgrLeft` and `now = 5`. -/
theorem cacheManager_cleanup_total_witness :
    (CacheManager.cleanup mgrLeft 5).1 =
      (Mem.cleanup mgrLeft.memory 5).1 + (FilesCache.cleanup mgrLeft.files 5).1 +
        (SqliteCache.cleanup mgrLeft.sqlite 5).1 ∧
    (∀ kv ∈ ((CacheManager.cleanup mgrLeft 5).2).memory.entries,
      kv.2.isExpired 5 = false) :=
  ⟨(cacheManager_cleanup_total mgrLeft 5).1,
   (cacheManager_cleanup_total mgrLeft 5).2.2.1 (by decide)⟩

end Tier

namespace Out

/-- Little-endian decimal digits, structural in a fuel argument (`n` itself
is always enough fuel). -/
def natDigitsRev : ℕ → ℕ → List ℕ
  | _, 0 => []
  | 0, _ + 1 => []
  | fuel + 1, n + 1 => (n + 1) % 10 :: natDigitsRev fuel ((n + 1) / 10)

/-- Python `str(n)` for a natural number: decimal digits, most significant
first. -/
def natStr (n : ℕ) : String :=
  if n = 0 then "0" else String.mk ((natDigitsRev n n).reverse.map Nat.digitChar)

/-- Collapse every run of whitespace to a single `'_'`
(`re.sub(r"\s+", "_", ...)`).  The first argument is recursion fuel, always
called with the list length. -/
def collapseWs : ℕ → List Char → List Char
  | _, [] => []
  | 0, l => l
  | fuel + 1, c :: cs =>
    if c.isWhitespace then '_' :: collapseWs fuel (cs.dropWhile Char.isWhitespace)
    else c :: collapseWs fuel cs

/-- `os.path.basename`: the part after the last `'/'`. -/
def pyBasename (s : String) : String :=
  String.mk ((s.data.reverse.takeWhile (fun c => decide (c ≠ '/'))).reverse)

/-- The character class `[A-Za-z0-9._-]` kept by `safe_slug`. -/
def allowedChar (c : Char) : Bool :=
  decide (('A' ≤ c ∧ c ≤ 'Z') ∨ ('a' ≤ c ∧ c ≤ 'z') ∨ ('0' ≤ c ∧ c ≤ '9') ∨
    c = '.' ∨ c = '_' ∨ c = '-')

/-- `safe_slug` from `server/storage/files.py` (lines 38-42): basename,
whitespace runs to `'_'`, strip characters outside `[A-Za-z0-9._-]`,
`"image"` if nothing remains. -/
def safeSlug (name : String) : String :=
  let base := (pyBasename name).data
  let cleaned := (collapseWs base.length base).filter allowedChar
  if cleaned = [] then "image" else String.mk cleaned

/-- The deterministic base filename of `RendererPipeline._store_output`
(line 152): `f"{timestamp}_{slug}_{request.layout}_{theme.name}"` with
`slug = safe_slug(request.identifier or "render")`. -/
def baseName (timestamp identifier layout themeName : String) : String :=
  timestamp ++ "_" ++ safeSlug (if identifier = "" then "render" else identifier) ++
    "_" ++ layout ++ "_" ++ themeName

/-- The candidate path tried at loop iteration `k` of `_store_output`:
`f"{base_name}.png"` first, then `f"{base_name}_{counter}.png"` with
`counter = 1, 2, ...`. -/
def candName (base : String) : ℕ → String
  | 0 => base ++ ".png"
  | k + 1 => base ++ "_" ++ natStr (k + 1) ++ ".png"

/-- The `while candidate.exists()` loop of `_store_output`, with explicit
fuel (always called with more fuel than there are files, which provably
suffices). -/
def findLoop (fs : List String) (base : String) : ℕ → ℕ → String
  | 0, k => candName base k
  | fuel + 1, k =>
    if candName base k ∈ fs then findLoop fs base fuel (k + 1) else candName base k

/-- The name `_store_output` picks given the set of files on disk. -/
def storeOutputName (fs : List String) (base : String) : String :=
  findLoop fs base (fs.length + 2) 0

/-- `_store_output`: pick the first free candidate name and save the image
there (the chosen path joins the on-disk set). -/
def storeOutput (fs : List String) (base : String) : String × List String :=
  let name := storeOutputName fs base
  (name, name :: fs)

theorem digitChar_inj :
    ∀ a < 10, ∀ b < 10, Nat.digitChar a = Nat.digitChar b → a = b := by decide

theorem map_digitChar_inj : ∀ (l1 l2 : List ℕ), (∀ d ∈ l1, d < 10) →
    (∀ d ∈ l2, d < 10) → l1.map Nat.digitChar = l2.map Nat.digitChar → l1 = l2 := by
  intro l1
  induction l1 with
  | nil =>
    intro l2 _ _ h
    cases l2 with
    | nil => rfl
    | cons b l2 => simp at h
  | cons a l1 ih =>
    intro l2 h1 h2 h
    cases l2 with
    | nil => simp at h
    | cons b l2 =>
      simp only [List.map_cons, List.cons.injEq] at h
      have hab : a = b :=
        digitChar_inj a (h1 a (by simp)) b (h2 b (by simp)) h.1
      rw [hab, ih l2 (fun d hd => h1 d (by simp [hd]))
        (fun d hd => h2 d (by simp [hd])) h.2]

theorem natDigitsRev_eq_digits : ∀ (fuel n : ℕ), n ≤ fuel →
    natDigitsRev fuel n = Nat.digits 10 n := by
  intro fuel
  induction fuel with
  | zero =>
    intro n hn
    obtain rfl := Nat.le_zero.mp hn
    simp [natDigitsRev]
  | succ fuel ih =>
    intro n hn
    match n with
    | 0 => simp [natDigitsRev]
    | n + 1 =>
      rw [natDigitsRev]
      have hdiv : (n + 1) / 10 ≤ fuel := by
        have := Nat.div_lt_self (Nat.succ_pos n) (by norm_num : 1 < 10)
        omega
      rw [ih ((n + 1) / 10) hdiv,
        ← Nat.digits_def' (by norm_num : (1:ℕ) < 10) (Nat.succ_pos n)]

theorem natStr_inj (m n : ℕ) (hm : 0 < m) (hn : 0 < n)
    (h : natStr m = natStr n) : m = n := by
  unfold natStr at h
  rw [if_neg (Nat.pos_iff_ne_zero.mp hm), if_neg (Nat.pos_iff_ne_zero.mp hn),
    natDigitsRev_eq_digits m m le_rfl, natDigitsRev_eq_digits n n le_rfl] at h
  have hdata : (Nat.digits 10 m).reverse.map Nat.digitChar =
      (Nat.digits 10 n).reverse.map Nat.digitChar := congrArg String.data h
  have hrev := map_digitChar_inj _ _
    (fun d hd => Nat.digits_lt_base (by norm_num) (List.mem_reverse.mp hd))
    (fun d hd => Nat.digits_lt_base (by norm_num) (List.mem_reverse.mp hd)) hdata
  have hdig := List.reverse_injective hrev
  calc m = Nat.ofDigits 10 (Nat.digits 10 m) := (Nat.ofDigits_digits 10 m).symm
    _ = Nat.ofDigits 10 (Nat.digits 10 n) := by rw [hdig]
    _ = n := Nat.ofDigits_digits 10 n

theorem candName_inj (base : String) : ∀ j k, candName base j = candName base k → j = k := by
  intro j k h
  match j, k with
  | 0, 0 => rfl
  | 0, k + 1 =>
    exfalso
    have hd := congrArg String.data h
    simp only [candName, String.data_append] at hd
    have hlen := congrArg List.length hd
    simp at hlen
  | j + 1, 0 =>
    exfalso
    have hd := congrArg String.data h
    simp only [candName, String.data_append] at hd
    have hlen := congrArg List.length hd
    simp at hlen
  | j + 1, k + 1 =>
    have hd := congrArg String.data h
    simp only [candName, String.data_append, List.append_assoc] at hd
    have h1 := List.append_cancel_left hd
    have h2 := List.append_cancel_left h1
    have h3 := List.append_cancel_right h2
    have h4 : natStr (j + 1) = natStr (k + 1) := String.ext h3
    have := natStr_inj _ _ (Nat.succ_pos j) (Nat.succ_pos k) h4
    omega

theorem exists_free_cand (fs : List String) (base : String) :
    ∃ k, k < fs.length + 2 ∧ candName base k ∉ fs := by
  by_contra hcon
  push_neg at hcon
  have hinj : Set.InjOn (candName base) ↑(Finset.range (fs.length + 2)) :=
    fun a _ b _ h => candName_inj base a b h
  have hsub : (Finset.range (fs.length + 2)).image (candName base) ⊆ fs.toFinset := by
    intro x hx
    simp only [Finset.mem_image, Finset.mem_range] at hx
    obtain ⟨k, hk, rfl⟩ := hx
    exact List.mem_toFinset.mpr (hcon k hk)
  have hcard := Finset.card_le_card hsub
  rw [Finset.card_image_of_injOn hinj, Finset.card_range] at hcard
  have := fs.toFinset_card_le
  omega

theorem findLoop_not_mem (fs : List String) (base : String) :
    ∀ (fuel k : ℕ), (∃ j, k ≤ j ∧ j < k + fuel ∧ candName base j ∉ fs) →
      findLoop fs base fuel k ∉ fs := by
  intro fuel
  induction fuel with
  | zero =>
    intro k ⟨j, hj1, hj2, _⟩
    omega
  | succ fuel ih =>
    intro k ⟨j, hj1, hj2, hj3⟩
    rw [findLoop]
    by_cases hmem : candName base k ∈ fs
    · rw [if_pos hmem]
      apply ih (k + 1)
      refine ⟨j, ?_, by omega, hj3⟩
      rcases Nat.eq_or_lt_of_le hj1 with heq | hlt
      · exfalso; rw [← heq] at hj3; exact hj3 hmem
      · omega
    · rw [if_neg hmem]
      exact hmem

theorem storeOutputName_not_mem (fs : List String) (base : String) :
    storeOutputName fs base ∉ fs := by
  obtain ⟨j, hj, hfree⟩ := exists_free_cand fs base
  exact findLoop_not_mem fs base (fs.length + 2) 0 ⟨j, Nat.zero_le j, by omega, hfree⟩

/-- **C8.** Output-writer collision avoidance: with the base filename built
from timestamp, slugified identifier, layout and theme, `_store_output`
(1) never picks a name already on disk — no existing file is overwritten —
and (2) two consecutive stores with the same base (same second, identifier,
layout, theme) produce two distinct files, both present on disk afterwards. -/
theorem storeOutput_collision_avoidance (fs : List String)
    (timestamp identifier layout themeName : String) :
    (storeOutput fs (baseName timestamp identifier layout themeName)).1 ∉ fs ∧
    (storeOutput ((storeOutput fs (baseName timestamp identifier layout themeName)).2)
        (baseName timestamp identifier layout themeName)).1 ∉
      (storeOutput fs (baseName timestamp identifier layout themeName)).2 ∧
    (storeOutput fs (baseName timestamp identifier layout themeName)).1 ≠
      (storeOutput ((storeOutput fs (baseName timestamp identifier layout themeName)).2)
        (baseName timestamp identifier layout themeName)).1 ∧
    (storeOutput fs (baseName timestamp identifier layout themeName)).1 ∈
      (storeOutput ((storeOutput fs (baseName timestamp identifier layout themeName)).2)
        (baseName timestamp identifier layout themeName)).2 ∧
    (storeOutput ((storeOutput fs (baseName timestamp identifier layout themeName)).2)
        (baseName timestamp identifier layout themeName)).1 ∈
      (storeOutput ((storeOutput fs (baseName timestamp identifier layout themeName)).2)
        (baseName timestamp identifier layout themeName)).2 := by
  set base := baseName timestamp identifier layout themeName
  have h1 : storeOutputName fs base ∉ fs := storeOutputName_not_mem fs base
  have h2 : storeOutputName (storeOutputName fs base :: fs) base ∉
      (storeOutputName fs base :: fs) :=
    storeOutputName_not_mem (storeOutputName fs base :: fs) base
  refine ⟨h1, h2, ?_, ?_, ?_⟩
  · intro heq
    simp only [storeOutput] at heq
    apply h2
    rw [← heq]
    exact List.mem_cons_self _ _
  · simp [storeOutput]
  · simp [storeOutput]

end Out

namespace Out

/-- Witness for `storeOutput_collision_avoidance`: two stores in the same
second for identifier `"photo 1.jpg"`, layout `"single"`, theme `"mono"` on
an empty directory; the first gets the plain name, the second the `_1`
suffix, and both are on disk afterwards. -/
theorem storeOutput_collision_witness :
    (storeOutput [] (baseName "20240101-120000" "photo 1.jpg" "single" "mono")).1 ∉
      ([] : List String) ∧
    (storeOutput [] (baseName "20240101-120000" "photo 1.jpg" "single" "mono")).1 ≠
      (storeOutput
        ((storeOutput [] (baseName "20240101-120000" "photo 1.jpg" "single" "mono")).2)
        (baseName "20240101-120000" "photo 1.jpg" "single" "mono")).1 ∧
    (storeOutput [] (baseName "20240101-120000" "photo 1.jpg" "single" "mono")).1 =
      "20240101-120000_photo_1.jpg_single_mono.png" ∧
    (storeOutput
        ((storeOutput [] (baseName "20240101-120000" "photo 1.jpg" "single" "mono")).2)
        (baseName "20240101-120000" "photo 1.jpg" "single" "mono")).1 =
      "20240101-120000_photo_1.jpg_single_mono_1.png" :=
  ⟨(storeOutput_collision_avoidance [] "20240101-120000" "photo 1.jpg" "single" "mono").1,
   (storeOutput_collision_avoidance [] "20240101-120000" "photo 1.jpg" "single"
      "mono").2.2.1,
   by decide, by decide⟩

end Out

namespace SF

open TTL (CEntry mkStoredEntry)

/-- Program counter of one `get_or_load` caller coroutine for a single
uncached key.  `inLoader t` carries the `now` sampled at the under-lock
re-check (line 78 of `server/cache/__init__.py`), because the entry stored
after the loader finishes uses *that* earlier timestamp. -/
inductive TPC
  | start
  | waitLock
  | ownRecheck
  | inLoader (t : ℚ)
  | done
  deriving Repr, DecidableEq

/-- Program counter of a background `_refresh` task created by
`_schedule_refresh`. -/
inductive RPC
  | rStart
  | rWaitLock
  | rOwn
  | rInLoader
  | rDone
  deriving Repr, DecidableEq

/-- Global state of the cooperative schedule: the single key's entry slot,
the per-key `asyncio.Lock` (held or free), the loader-invocation counter the
claim's scenario increments, the caller tasks, and any spawned refresh
tasks. -/
structure St (n : ℕ) where
  entry : Option (CEntry Unit)
  lockHeld : Bool
  counter : ℕ
  tasks : Fin n → TPC
  refs : List RPC

/-- Which waiter the lock is handed to on release (asyncio wakes the first
waiter; the model lets the scheduler pick any waiter, a superset of FIFO):
a caller index, a refresh-task index, or `none` when no one waits. -/
abbrev RelC (n : ℕ) := Option (Sum (Fin n) ℕ)

/-- A release choice is valid when it names an actual waiter, or `none` while
nobody waits. -/
def relValid (rel : RelC n) (s : St n) : Bool :=
  match rel with
  | some (Sum.inl j) => decide (s.tasks j = TPC.waitLock)
  | some (Sum.inr i) => decide (s.refs.get? i = some RPC.rWaitLock)
  | none =>
    decide (∀ j, s.tasks j ≠ TPC.waitLock) && decide (RPC.rWaitLock ∉ s.refs)

/-- Effect of `lock.release()`: hand the lock to the chosen waiter (who will
resume holding it), or free it when nobody waits. -/
def applyRelease (rel : RelC n) (s : St n) : St n :=
  match rel with
  | some (Sum.inl j) => { s with tasks := Function.update s.tasks j TPC.ownRecheck }
  | some (Sum.inr i) => { s with refs := s.refs.set i RPC.rOwn }
  | none => { s with lockHeld := false }

/-- A scheduler event: run caller `i` (with clock `t` at its current line and
`tr` at the under-lock re-check, both sampled by `time.monotonic()`), or run
refresh task `j` (`ok` is whether its loader call succeeds).  `rel` is the
waiter woken if this step releases the lock.  An event whose release choice
is invalid for the current state stutters. -/
inductive Ev (n : ℕ)
  | call (i : Fin n) (t tr : ℚ) (rel : RelC n)
  | refp (j : ℕ) (t : ℚ) (ok : Bool) (rel : RelC n)

/-- The `async with lock` entry of `get_or_load` (line 75): suspend when the
lock is held; otherwise acquire without yielding and run the re-check
(lines 77-80) in the same atomic block, entering the loader (which suspends
at its sleep) unless a fresh entry appeared. -/
def lockPath (i : Fin n) (tr : ℚ) (s : St n) : St n :=
  if s.lockHeld then { s with tasks := Function.update s.tasks i TPC.waitLock }
  else
    match s.entry with
    | some e2 =>
      if e2.isFresh tr then { s with tasks := Function.update s.tasks i TPC.done }
      else { s with lockHeld := true,
                    tasks := Function.update s.tasks i (TPC.inLoader tr) }
    | none => { s with lockHeld := true,
                       tasks := Function.update s.tasks i (TPC.inLoader tr) }

/-- One cooperative step.  Caller at `start` runs `get_or_load` lines 66-75:
fresh → return; stale → `_schedule_refresh` (spawn a refresh task unless the
lock is already held) and return; else the lock path.  Caller at `inLoader`
resumes from the loader's sleep: increment the counter, store the entry with
the re-check timestamp (lines 82-88), release.  Refresh tasks mirror
`_refresh` (lines 106-118): acquire, load, store with a *post*-loader
timestamp, release; a failing loader is caught and stores nothing. -/
def stepEv (ttl staleTtl : ℚ) : Ev n → St n → St n
  | Ev.call i t tr rel, s =>
    match s.tasks i with
    | TPC.start =>
      match s.entry with
      | some e =>
        if e.isFresh t then { s with tasks := Function.update s.tasks i TPC.done }
        else if e.isStale t then
          { s with tasks := Function.update s.tasks i TPC.done,
                   refs := if s.lockHeld then s.refs else s.refs ++ [RPC.rStart] }
        else lockPath i tr s
      | none => lockPath i tr s
    | TPC.waitLock => s
    | TPC.ownRecheck =>
      match s.entry with
      | some e =>
        if e.isFresh t then
          if relValid rel s then
            applyRelease rel { s with tasks := Function.update s.tasks i TPC.done }
          else s
        else { s with tasks := Function.update s.tasks i (TPC.inLoader t) }
      | none => { s with tasks := Function.update s.tasks i (TPC.inLoader t) }
    | TPC.inLoader t0 =>
      if relValid rel s then
        applyRelease rel
          { s with tasks := Function.update s.tasks i TPC.done,
                   counter := s.counter + 1,
                   entry := some (mkStoredEntry () t0 ttl staleTtl) }
      else s
    | TPC.done => s
  | Ev.refp j t ok rel, s =>
    match s.refs.get? j with
    | some RPC.rStart =>
      if s.lockHeld then { s with refs := s.refs.set j RPC.rWaitLock }
      else { s with lockHeld := true, refs := s.refs.set j RPC.rInLoader }
    | some RPC.rWaitLock => s
    | some RPC.rOwn => { s with refs := s.refs.set j RPC.rInLoader }
    | some RPC.rInLoader =>
      if relValid rel s then
        if ok then
          applyRelease rel
            { s with refs := s.refs.set j RPC.rDone,
                     counter := s.counter + 1,
                     entry := some (mkStoredEntry () t ttl staleTtl) }
        else applyRelease rel { s with refs := s.refs.set j RPC.rDone }
      else s
    | some RPC.rDone => s
    | none => s

/-- Run a whole schedule. -/
def run (ttl staleTtl : ℚ) (evs : List (Ev n)) (s : St n) : St n :=
  evs.foldl (fun s ev => stepEv ttl staleTtl ev s) s

/-- The initial state of the claim's scenario: the key is uncached, the lock
free, the counter zero, and `n` concurrent `get_or_load` callers launched. -/
def init (n : ℕ) : St n :=
  { entry := none, lockHeld := false, counter := 0,
    tasks := fun _ => TPC.start, refs := [] }

/-- Lock-ownership weight of a caller state (`ownRecheck` and `inLoader`
hold the lock). -/
def ownT : TPC → ℕ
  | TPC.ownRecheck => 1
  | TPC.inLoader _ => 1
  | _ => 0

/-- Loader-running weight of a caller state. -/
def loadT : TPC → ℕ
  | TPC.inLoader _ => 1
  | _ => 0

/-- Lock-ownership weight of a refresh-task state. -/
def ownR : RPC → ℕ
  | RPC.rOwn => 1
  | RPC.rInLoader => 1
  | _ => 0

/-- Loader-running weight of a refresh-task state. -/
def loadR : RPC → ℕ
  | RPC.rInLoader => 1
  | _ => 0

/-- Number of lock owners across callers and refresh tasks. -/
def ownSum (s : St n) : ℕ := (∑ i, ownT (s.tasks i)) + (s.refs.map ownR).sum

/-- Number of loader invocations currently in flight. -/
def loaderCount (s : St n) : ℕ :=
  (∑ i, loadT (s.tasks i)) + (s.refs.map loadR).sum

end SF

namespace SF

theorem sum_update_aux {n : ℕ} (g : Fin n → TPC) (j : Fin n) (v : TPC)
    (f : TPC → ℕ) :
    (∑ i, f (Function.update g j v i)) + f (g j) = (∑ i, f (g i)) + f v := by
  have h1 : (fun i => f (Function.update g j v i)) =
      Function.update (fun i => f (g i)) j (f v) := by
    funext i
    exact Function.apply_update (fun _ x => f x) g j v i
  rw [h1, Finset.sum_update_of_mem (Finset.mem_univ j), ← Finset.erase_eq,
    ← Finset.add_sum_erase _ (fun i => f (g i)) (Finset.mem_univ j)]
  omega

theorem listSet_sum (f : RPC → ℕ) : ∀ (l : List RPC) (j : ℕ) (r v : RPC),
    l.get? j = some r →
    ((l.set j v).map f).sum + f r = (l.map f).sum + f v := by
  intro l
  induction l with
  | nil => intro j r v h; simp at h
  | cons a l ih =>
    intro j r v h
    cases j with
    | zero =>
      simp only [List.get?_cons_zero, Option.some.injEq] at h
      subst h
      simp only [List.set_cons_zero, List.map_cons, List.sum_cons]
      omega
    | succ j =>
      simp only [List.get?_cons_succ] at h
      simp only [List.set_cons_succ, List.map_cons, List.sum_cons]
      have := ih j r v h
      omega

theorem loadT_le_ownT : ∀ p : TPC, loadT p ≤ ownT p := by
  intro p; cases p <;> simp [loadT, ownT]

theorem loadR_le_ownR : ∀ p : RPC, loadR p ≤ ownR p := by
  intro p; cases p <;> simp [loadR, ownR]

theorem list_sum_le (f g : RPC → ℕ) (hfg : ∀ p, f p ≤ g p) :
    ∀ l : List RPC, (l.map f).sum ≤ (l.map g).sum := by
  intro l
  induction l with
  | nil => simp
  | cons a l ih =>
    simp only [List.map_cons, List.sum_cons]
    exact Nat.add_le_add (hfg a) ih

theorem loaderCount_le_ownSum (s : St n) : loaderCount s ≤ ownSum s := by
  unfold loaderCount ownSum
  exact Nat.add_le_add (Finset.sum_le_sum fun i _ => loadT_le_ownT _)
    (list_sum_le _ _ loadR_le_ownR s.refs)

theorem ownSum_zero_task {n : ℕ} {s : St n} (h : ownSum s = 0) (i : Fin n) :
    ownT (s.tasks i) = 0 := by
  unfold ownSum at h
  have h1 : (∑ i, ownT (s.tasks i)) = 0 := by omega
  exact Finset.sum_eq_zero_iff.mp h1 i (Finset.mem_univ i)

theorem ownSum_one_unique {n : ℕ} {s : St n} (h : ownSum s = 1) {i : Fin n}
    (hi : ownT (s.tasks i) = 1) :
    (∀ i', i' ≠ i → ownT (s.tasks i') = 0) ∧ (s.refs.map ownR).sum = 0 := by
  unfold ownSum at h
  have hsplit : (∑ i', ownT (s.tasks i')) =
      ownT (s.tasks i) + ∑ i' ∈ Finset.univ.erase i, ownT (s.tasks i') :=
    (Finset.add_sum_erase _ _ (Finset.mem_univ i)).symm
  have h0 : (∑ i' ∈ Finset.univ.erase i, ownT (s.tasks i')) = 0 ∧
      (s.refs.map ownR).sum = 0 := by omega
  constructor
  · intro i' hne
    exact Finset.sum_eq_zero_iff.mp h0.1 i'
      (Finset.mem_erase.mpr ⟨hne, Finset.mem_univ i'⟩)
  · exact h0.2

end SF

namespace SF


/-- The lock-accounting invariant: exactly one lock owner when the lock is
held, none when free. -/
def LockInv (s : St n) : Prop := ownSum s = s.lockHeld.toNat

theorem list_get_le_sum (f : RPC → ℕ) : ∀ (l : List RPC) (j : ℕ) (r : RPC),
    l.get? j = some r → f r ≤ (l.map f).sum := by
  intro l
  induction l with
  | nil => intro j r h; simp at h
  | cons a l ih =>
    intro j r h
    cases j with
    | zero =>
      simp only [List.get?_cons_zero, Option.some.injEq] at h
      subst h
      simp only [List.map_cons, List.sum_cons]
      omega
    | succ j =>
      simp only [List.get?_cons_succ] at h
      simp only [List.map_cons, List.sum_cons]
      have := ih j r h
      omega

theorem task_le_ownSum (s : St n) (i : Fin n) : ownT (s.tasks i) ≤ ownSum s := by
  have hle : ownT (s.tasks i) ≤ ∑ i', ownT (s.tasks i') :=
    Finset.single_le_sum
      (fun (i' : Fin n) (_ : i' ∈ Finset.univ) => Nat.zero_le (ownT (s.tasks i')))
      (Finset.mem_univ i)
  unfold ownSum
  omega

theorem lockHeld_of_ownT {n : ℕ} {s : St n} (hs : LockInv s) {i : Fin n}
    (hi : ownT (s.tasks i) = 1) : s.lockHeld = true ∧ ownSum s = 1 := by
  have hle := task_le_ownSum s i
  unfold LockInv at hs
  cases hl : s.lockHeld with
  | false => rw [hl] at hs; simp at hs; omega
  | true =>
    rw [hl] at hs
    simp only [Bool.toNat_true] at hs
    exact ⟨rfl, hs⟩

theorem lockHeld_of_refs_owner {n : ℕ} {s : St n} (hs : LockInv s) {j : ℕ}
    {r : RPC} (hj : s.refs.get? j = some r) (hr : ownR r = 1) :
    s.lockHeld = true ∧ ownSum s = 1 := by
  have hle := list_get_le_sum ownR s.refs j r hj
  have hle2 : ownR r ≤ ownSum s := by unfold ownSum; omega
  unfold LockInv at hs
  cases hl : s.lockHeld with
  | false => rw [hl] at hs; simp at hs; omega
  | true =>
    rw [hl] at hs
    simp only [Bool.toNat_true] at hs
    exact ⟨rfl, hs⟩

theorem lockPath_lockInv (i : Fin n) (tr : ℚ) (s : St n)
    (hti : ownT (s.tasks i) = 0) (hs : LockInv s) : LockInv (lockPath i tr s) := by
  unfold lockPath
  unfold LockInv ownSum at hs ⊢
  cases hl : s.lockHeld with
  | true =>
    simp only [hl, if_true, Bool.toNat_true] at hs ⊢
    have hupd := sum_update_aux s.tasks i TPC.waitLock ownT
    have hw : ownT TPC.waitLock = 0 := rfl
    omega
  | false =>
    simp only [hl, Bool.false_eq_true, if_false, Bool.toNat_false] at hs ⊢
    cases hentry : s.entry with
    | some e2 =>
      by_cases hf : e2.isFresh tr
      · simp only [hf, if_true, Bool.toNat_false]
        have hupd := sum_update_aux s.tasks i TPC.done ownT
        have hw : ownT TPC.done = 0 := rfl
        omega
      · simp only [hf, Bool.false_eq_true, if_false, Bool.toNat_true]
        have hupd := sum_update_aux s.tasks i (TPC.inLoader tr) ownT
        have hw : ownT (TPC.inLoader tr) = 1 := rfl
        omega
    | none =>
      simp only [Bool.toNat_true]
      have hupd := sum_update_aux s.tasks i (TPC.inLoader tr) ownT
      have hw : ownT (TPC.inLoader tr) = 1 := rfl
      omega

end SF

namespace SF

theorem listSet_get_ne : ∀ (l : List RPC) (i j : ℕ) (v : RPC), i ≠ j →
    (l.set i v).get? j = l.get? j := by
  intro l
  induction l with
  | nil => intro i j v _; simp
  | cons a l ih =>
    intro i j v hij
    cases i with
    | zero =>
      cases j with
      | zero => exact absurd rfl hij
      | succ j => simp [List.set_cons_zero]
    | succ i =>
      cases j with
      | zero => simp [List.set_cons_succ]
      | succ j =>
        simp only [List.set_cons_succ, List.get?_cons_succ]
        exact ih i j v (fun h => hij (congrArg Nat.succ h))

/-- Releasing the lock out of a state with no owner left (`s''`), where the
release choice was validated against the pre-state `s`, restores the lock
invariant: either the lock is handed to a waiter (who becomes the unique
owner) or freed. -/
theorem release_after_drop (rel : RelC n) (s s'' : St n)
    (hrel : relValid rel s = true)
    (hlock : s.lockHeld = true)
    (hsum : ownSum s'' = 0)
    (hlock2 : s''.lockHeld = s.lockHeld)
    (htasks2 : ∀ j, s.tasks j = TPC.waitLock → s''.tasks j = TPC.waitLock)
    (hrefs2 : ∀ jr, s.refs.get? jr = some RPC.rWaitLock →
      s''.refs.get? jr = some RPC.rWaitLock) :
    LockInv (applyRelease rel s'') := by
  rcases rel with _ | x
  · -- no waiter: free the lock
    simp only [applyRelease]
    unfold LockInv ownSum
    unfold ownSum at hsum
    simp only [Bool.toNat_false]
    omega
  · rcases x with j | jr
    · -- hand to caller j
      simp only [relValid, decide_eq_true_eq] at hrel
      have hw := htasks2 j hrel
      simp only [applyRelease]
      unfold LockInv ownSum
      unfold ownSum at hsum
      have hupd := sum_update_aux s''.tasks j TPC.ownRecheck ownT
      rw [hw] at hupd
      have h1 : ownT TPC.waitLock = 0 := rfl
      have h2 : ownT TPC.ownRecheck = 1 := rfl
      rw [hlock2, hlock]
      simp only [Bool.toNat_true]
      omega
    · -- hand to refresh task jr
      simp only [relValid, decide_eq_true_eq] at hrel
      have hw := hrefs2 jr hrel
      simp only [applyRelease]
      unfold LockInv ownSum
      unfold ownSum at hsum
      have hset := listSet_sum ownR s''.refs jr RPC.rWaitLock RPC.rOwn hw
      have h1 : ownR RPC.rWaitLock = 0 := rfl
      have h2 : ownR RPC.rOwn = 1 := rfl
      rw [hlock2, hlock]
      simp only [Bool.toNat_true]
      omega

theorem lockInv_step (ttl staleTtl : ℚ) (ev : Ev n) (s : St n)
    (hs : LockInv s) : LockInv (stepEv ttl staleTtl ev s) := by
  cases ev with
  | call i t tr rel =>
    cases htask : s.tasks i with
    | start =>
      simp only [stepEv, htask]
      cases hentry : s.entry with
      | none =>
        exact lockPath_lockInv i tr s (by rw [htask]; rfl) hs
      | some e =>
        by_cases hf : e.isFresh t
        · simp only [hf, if_true]
          unfold LockInv ownSum at hs ⊢
          dsimp only at hs ⊢
          have hupd := sum_update_aux s.tasks i TPC.done ownT
          rw [htask] at hupd
          have h1 : ownT TPC.start = 0 := rfl
          have h2 : ownT TPC.done = 0 := rfl
          omega
        · by_cases hst : e.isStale t
          · simp only [hf, Bool.false_eq_true, if_false, hst, if_true]
            unfold LockInv ownSum at hs ⊢
            dsimp only at hs ⊢
            have hupd := sum_update_aux s.tasks i TPC.done ownT
            rw [htask] at hupd
            have h1 : ownT TPC.start = 0 := rfl
            have h2 : ownT TPC.done = 0 := rfl
            cases hl : s.lockHeld with
            | true => simp only [hl, if_true, Bool.toNat_true] at hs ⊢; omega
            | false =>
              simp only [hl, Bool.false_eq_true, if_false, Bool.toNat_false]
                at hs ⊢
              have happ : ((s.refs ++ [RPC.rStart]).map ownR).sum =
                  (s.refs.map ownR).sum + ownR RPC.rStart := by simp
              have h3 : ownR RPC.rStart = 0 := rfl
              omega
          · simp only [hf, Bool.false_eq_true, if_false, hst]
            exact lockPath_lockInv i tr s (by rw [htask]; rfl) hs
    | waitLock => simp only [stepEv, htask]; exact hs
    | ownRecheck =>
      simp only [stepEv, htask]
      cases hentry : s.entry with
      | none =>
        unfold LockInv ownSum at hs ⊢
        dsimp only at hs ⊢
        have hupd := sum_update_aux s.tasks i (TPC.inLoader t) ownT
        rw [htask] at hupd
        have h1 : ownT TPC.ownRecheck = 1 := rfl
        have h2 : ownT (TPC.inLoader t) = 1 := rfl
        omega
      | some e =>
        by_cases hf : e.isFresh t
        · simp only [hf, if_true]
          by_cases hrel : relValid rel s = true
          · simp only [hrel, if_true]
            have hlock := lockHeld_of_ownT hs (by rw [htask]; rfl)
            refine release_after_drop rel s _ hrel hlock.1 ?_ rfl ?_ ?_
            · unfold ownSum
              dsimp only
              have hupd := sum_update_aux s.tasks i TPC.done ownT
              rw [htask] at hupd
              have h1 : ownT TPC.ownRecheck = 1 := rfl
              have h2 : ownT TPC.done = 0 := rfl
              have hsum1 := hlock.2
              unfold ownSum at hsum1
              omega
            · intro j hj
              have hij : j ≠ i := by
                intro hji; rw [hji, htask] at hj; exact TPC.noConfusion hj
              simpa [Function.update_noteq hij] using hj
            · intro jr hjr
              exact hjr
          · simp only [hrel, Bool.false_eq_true, if_false]
            exact hs
        · simp only [hf, Bool.false_eq_true, if_false]
          unfold LockInv ownSum at hs ⊢
          dsimp only at hs ⊢
          have hupd := sum_update_aux s.tasks i (TPC.inLoader t) ownT
          rw [htask] at hupd
          have h1 : ownT TPC.ownRecheck = 1 := rfl
          have h2 : ownT (TPC.inLoader t) = 1 := rfl
          omega
    | inLoader t0 =>
      simp only [stepEv, htask]
      by_cases hrel : relValid rel s = true
      · simp only [hrel, if_true]
        have hlock := lockHeld_of_ownT hs (by rw [htask]; rfl)
        refine release_after_drop rel s _ hrel hlock.1 ?_ rfl ?_ ?_
        · unfold ownSum
          dsimp only
          have hupd := sum_update_aux s.tasks i TPC.done ownT
          rw [htask] at hupd
          have h1 : ownT (TPC.inLoader t0) = 1 := rfl
          have h2 : ownT TPC.done = 0 := rfl
          have hsum1 := hlock.2
          unfold ownSum at hsum1
          omega
        · intro j hj
          have hij : j ≠ i := by
            intro hji; rw [hji, htask] at hj; exact TPC.noConfusion hj
          simpa [Function.update_noteq hij] using hj
        · intro jr hjr
          exact hjr
      · simp only [hrel, Bool.false_eq_true, if_false]
        exact hs
    | done => simp only [stepEv, htask]; exact hs
  | refp j t ok rel =>
    cases hrefs : s.refs.get? j with
    | none => simp only [stepEv, hrefs]; exact hs
    | some r =>
      cases r with
      | rStart =>
        simp only [stepEv, hrefs]
        cases hl : s.lockHeld with
        | true =>
          simp only [if_true]
          unfold LockInv ownSum at hs ⊢
          dsimp only at hs ⊢
          have hset := listSet_sum ownR s.refs j RPC.rStart RPC.rWaitLock hrefs
          have h1 : ownR RPC.rStart = 0 := rfl
          have h2 : ownR RPC.rWaitLock = 0 := rfl
          simp only [hl, Bool.toNat_true] at hs ⊢
          omega
        | false =>
          simp only [Bool.false_eq_true, if_false]
          unfold LockInv ownSum at hs ⊢
          dsimp only at hs ⊢
          have hset := listSet_sum ownR s.refs j RPC.rStart RPC.rInLoader hrefs
          have h1 : ownR RPC.rStart = 0 := rfl
          have h2 : ownR RPC.rInLoader = 1 := rfl
          simp only [hl, Bool.toNat_false, Bool.toNat_true] at hs ⊢
          omega
      | rWaitLock => simp only [stepEv, hrefs]; exact hs
      | rOwn =>
        simp only [stepEv, hrefs]
        unfold LockInv ownSum at hs ⊢
        dsimp only at hs ⊢
        have hset := listSet_sum ownR s.refs j RPC.rOwn RPC.rInLoader hrefs
        have h1 : ownR RPC.rOwn = 1 := rfl
        have h2 : ownR RPC.rInLoader = 1 := rfl
        omega
      | rInLoader =>
        simp only [stepEv, hrefs]
        by_cases hrel : relValid rel s = true
        · simp only [hrel, if_true]
          have hlock := lockHeld_of_refs_owner hs hrefs rfl
          have hdropOk : ∀ (s'' : St n), s''.tasks = s.tasks →
              s''.refs = s.refs.set j RPC.rDone → ownSum s'' = 0 := by
            intro s'' ht hr
            unfold ownSum
            rw [ht, hr]
            have hset := listSet_sum ownR s.refs j RPC.rInLoader RPC.rDone hrefs
            have h1 : ownR RPC.rInLoader = 1 := rfl
            have h2 : ownR RPC.rDone = 0 := rfl
            have hge := list_get_le_sum ownR s.refs j RPC.rInLoader hrefs
            have hsum1 := hlock.2
            unfold ownSum at hsum1
            omega
          have hrefs2 : ∀ (s'' : St n), s''.refs = s.refs.set j RPC.rDone →
              ∀ jr, s.refs.get? jr = some RPC.rWaitLock →
                s''.refs.get? jr = some RPC.rWaitLock := by
            intro s'' hr jr hjr
            have hjjr : j ≠ jr := by
              intro hjj; rw [← hjj, hrefs] at hjr; exact absurd hjr (by simp)
            rw [hr, listSet_get_ne s.refs j jr RPC.rDone hjjr]
            exact hjr
          cases ok with
          | true =>
            simp only [if_true]
            refine release_after_drop rel s _ hrel hlock.1
              (hdropOk _ rfl rfl) rfl (fun j' hj' => hj') (hrefs2 _ rfl)
          | false =>
            simp only [Bool.false_eq_true, if_false]
            refine release_after_drop rel s _ hrel hlock.1
              (hdropOk _ rfl rfl) rfl (fun j' hj' => hj') (hrefs2 _ rfl)
        · simp only [hrel, Bool.false_eq_true, if_false]
          exact hs
      | rDone => simp only [stepEv, hrefs]; exact hs

end SF

namespace SF

open TTL (CEntry mkStoredEntry)

/-- All clock samples of an event lie in the window `[a, b]`. -/
def EvWindow (a b : ℚ) : Ev n → Prop
  | Ev.call _ t tr _ => a ≤ t ∧ t ≤ b ∧ a ≤ tr ∧ tr ≤ b
  | Ev.refp _ t _ _ => a ≤ t ∧ t ≤ b

instance (a b : ℚ) : (ev : Ev n) → Decidable (EvWindow a b ev)
  | Ev.call _ t tr _ => inferInstanceAs (Decidable (a ≤ t ∧ t ≤ b ∧ a ≤ tr ∧ tr ≤ b))
  | Ev.refp _ t _ _ => inferInstanceAs (Decidable (a ≤ t ∧ t ≤ b))

/-- The inductive invariant of the claim's scenario (all clocks within
`[a, b]` and `b < a + ttl`): the lock accounting holds, no refresh task was
ever spawned, loader holders carry an in-window re-check time and run only
while the entry is absent, a stored entry means the counter is exactly 1 and
the entry stays fresh beyond `b`, the counter is 0 before any store, and a
finished caller implies the entry exists. -/
structure Inv (a b : ℚ) {n : ℕ} (s : St n) : Prop where
  lock : LockInv s
  refsNil : s.refs = []
  loaderProps : ∀ i t0, s.tasks i = TPC.inLoader t0 → a ≤ t0 ∧ t0 ≤ b ∧ s.entry = none
  entryProps : ∀ e, s.entry = some e → s.counter = 1 ∧ b < e.expiresAt
  counterZero : s.entry = none → s.counter = 0
  doneSome : ∀ i, s.tasks i = TPC.done → s.entry.isSome = true

theorem not_inLoader_of_ownT_zero {p : TPC} (h : ownT p = 0) :
    ∀ t0, p ≠ TPC.inLoader t0 := by
  intro t0
  cases p <;> simp_all [ownT]

theorem isFresh_of_inv {a b : ℚ} {n : ℕ} {s : St n} (hs : Inv a b s)
    {e : CEntry Unit} (he : s.entry = some e) {u : ℚ} (hu : u ≤ b) :
    e.isFresh u = true := by
  have hb := (hs.entryProps e he).2
  have : e.expiresAt > u := lt_of_le_of_lt hu hb
  exact decide_eq_true this

theorem inv_step (a b ttl staleTtl : ℚ) (hwin : b < a + ttl)
    (ev : Ev n) (hev : EvWindow a b ev) (s : St n) (hs : Inv a b s) :
    Inv a b (stepEv ttl staleTtl ev s) := by
  have hlock' := lockInv_step ttl staleTtl ev s hs.lock
  cases ev with
  | refp j t ok rel =>
    have hstep : stepEv ttl staleTtl (Ev.refp j t ok rel) s = s := by
      simp only [stepEv, hs.refsNil, List.get?_nil]
    rw [hstep]
    exact hs
  | call i t tr rel =>
    obtain ⟨ht1, ht2, htr1, htr2⟩ := hev
    cases htask : s.tasks i with
    | start =>
      cases hentry : s.entry with
      | some e =>
        have hfr : e.isFresh t = true := isFresh_of_inv hs hentry ht2
        have hstep : stepEv ttl staleTtl (Ev.call i t tr rel) s =
            { s with tasks := Function.update s.tasks i TPC.done } := by
          simp only [stepEv, htask, hentry, hfr, if_true]
        rw [hstep] at hlock' ⊢
        refine ⟨hlock', hs.refsNil, ?_, hs.entryProps, hs.counterZero, ?_⟩
        · show ∀ i' t0, Function.update s.tasks i TPC.done i' = TPC.inLoader t0 →
            a ≤ t0 ∧ t0 ≤ b ∧ s.entry = none
          intro i' t0 hT
          by_cases hii : i' = i
          · rw [hii, Function.update_same] at hT; exact absurd hT (by simp)
          · rw [Function.update_noteq hii] at hT
            exact hs.loaderProps i' t0 hT
        · show ∀ i', Function.update s.tasks i TPC.done i' = TPC.done →
            s.entry.isSome = true
          intro i' hT
          by_cases hii : i' = i
          · rw [hentry]; rfl
          · rw [Function.update_noteq hii] at hT
            exact hs.doneSome i' hT
      | none =>
        cases hl : s.lockHeld with
        | true =>
          have hstep : stepEv ttl staleTtl (Ev.call i t tr rel) s =
              { s with tasks := Function.update s.tasks i TPC.waitLock } := by
            simp only [stepEv, htask, hentry, lockPath, hl, if_true]
          rw [hstep] at hlock' ⊢
          refine ⟨hlock', hs.refsNil, ?_, hs.entryProps, hs.counterZero, ?_⟩
          · show ∀ i' t0, Function.update s.tasks i TPC.waitLock i' = TPC.inLoader t0 →
              a ≤ t0 ∧ t0 ≤ b ∧ s.entry = none
            intro i' t0 hT
            by_cases hii : i' = i
            · rw [hii, Function.update_same] at hT; exact absurd hT (by simp)
            · rw [Function.update_noteq hii] at hT
              exact hs.loaderProps i' t0 hT
          · show ∀ i', Function.update s.tasks i TPC.waitLock i' = TPC.done →
              s.entry.isSome = true
            intro i' hT
            by_cases hii : i' = i
            · rw [hii, Function.update_same] at hT; exact absurd hT (by simp)
            · rw [Function.update_noteq hii] at hT
              exact hs.doneSome i' hT
        | false =>
          have hstep : stepEv ttl staleTtl (Ev.call i t tr rel) s =
              { s with lockHeld := true,
                       tasks := Function.update s.tasks i (TPC.inLoader tr) } := by
            simp only [stepEv, htask, hentry, lockPath, hl, Bool.false_eq_true,
              if_false]
          rw [hstep] at hlock' ⊢
          refine ⟨hlock', hs.refsNil, ?_, hs.entryProps, hs.counterZero, ?_⟩
          · show ∀ i' t0, Function.update s.tasks i (TPC.inLoader tr) i' =
                TPC.inLoader t0 → a ≤ t0 ∧ t0 ≤ b ∧ s.entry = none
            intro i' t0 hT
            by_cases hii : i' = i
            · rw [hii, Function.update_same] at hT
              injection hT with hT0
              rw [← hT0]
              exact ⟨htr1, htr2, hentry⟩
            · rw [Function.update_noteq hii] at hT
              exact hs.loaderProps i' t0 hT
          · show ∀ i', Function.update s.tasks i (TPC.inLoader tr) i' = TPC.done →
              s.entry.isSome = true
            intro i' hT
            by_cases hii : i' = i
            · rw [hii, Function.update_same] at hT; exact absurd hT (by simp)
            · rw [Function.update_noteq hii] at hT
              exact hs.doneSome i' hT
    | waitLock =>
      have hstep : stepEv ttl staleTtl (Ev.call i t tr rel) s = s := by
        simp only [stepEv, htask]
      rw [hstep]
      exact hs
    | done =>
      have hstep : stepEv ttl staleTtl (Ev.call i t tr rel) s = s := by
        simp only [stepEv, htask]
      rw [hstep]
      exact hs
    | ownRecheck =>
      cases hentry : s.entry with
      | some e =>
        have hfr : e.isFresh t = true := isFresh_of_inv hs hentry ht2
        by_cases hrel : relValid rel s = true
        · rcases rel with _ | x
          · -- release with no waiter
            have hstep : stepEv ttl staleTtl (Ev.call i t tr none) s =
                { s with tasks := Function.update s.tasks i TPC.done,
                         lockHeld := false } := by
              simp only [stepEv, htask, hentry, hfr, if_true, hrel, applyRelease]
            rw [hstep] at hlock' ⊢
            refine ⟨hlock', hs.refsNil, ?_, hs.entryProps, hs.counterZero, ?_⟩
            · show ∀ i' t0, Function.update s.tasks i TPC.done i' = TPC.inLoader t0 →
                a ≤ t0 ∧ t0 ≤ b ∧ s.entry = none
              intro i' t0 hT
              by_cases hii : i' = i
              · rw [hii, Function.update_same] at hT; exact absurd hT (by simp)
              · rw [Function.update_noteq hii] at hT
                exact hs.loaderProps i' t0 hT
            · show ∀ i', Function.update s.tasks i TPC.done i' = TPC.done →
                s.entry.isSome = true
              intro i' hT
              rw [hentry]; rfl
          · rcases x with j | jr
            · -- hand the lock to caller j
              have hv : s.tasks j = TPC.waitLock := by
                simpa [relValid, decide_eq_true_eq] using hrel
              have hstep : stepEv ttl staleTtl (Ev.call i t tr (some (Sum.inl j))) s =
                  { s with tasks := Function.update (Function.update s.tasks i TPC.done) j TPC.ownRecheck } := by
                simp only [stepEv, htask, hentry, hfr, if_true, hrel, applyRelease]
              rw [hstep] at hlock' ⊢
              refine ⟨hlock', hs.refsNil, ?_, hs.entryProps, hs.counterZero, ?_⟩
              · show ∀ i' t0, Function.update
                    (Function.update s.tasks i TPC.done) j TPC.ownRecheck i' =
                      TPC.inLoader t0 → a ≤ t0 ∧ t0 ≤ b ∧ s.entry = none
                intro i' t0 hT
                by_cases hij : i' = j
                · rw [hij, Function.update_same] at hT; exact absurd hT (by simp)
                · rw [Function.update_noteq hij] at hT
                  by_cases hii : i' = i
                  · rw [hii, Function.update_same] at hT; exact absurd hT (by simp)
                  · rw [Function.update_noteq hii] at hT
                    exact hs.loaderProps i' t0 hT
              · show ∀ i', Function.update
                    (Function.update s.tasks i TPC.done) j TPC.ownRecheck i' =
                      TPC.done → s.entry.isSome = true
                intro i' hT
                rw [hentry]; rfl
            · exfalso
              have : relValid (some (Sum.inr jr)) s = false := by
                simp [relValid, hs.refsNil]
              rw [this] at hrel
              exact Bool.noConfusion hrel
        · have hrel' : relValid rel s = false := by simpa using hrel
          have hstep : stepEv ttl staleTtl (Ev.call i t tr rel) s = s := by
            simp only [stepEv, htask, hentry, hfr, if_true, hrel',
              Bool.false_eq_true, if_false]
          rw [hstep]
          exact hs
      | none =>
        have hstep : stepEv ttl staleTtl (Ev.call i t tr rel) s =
            { s with tasks := Function.update s.tasks i (TPC.inLoader t) } := by
          simp only [stepEv, htask, hentry]
        rw [hstep] at hlock' ⊢
        refine ⟨hlock', hs.refsNil, ?_, hs.entryProps, hs.counterZero, ?_⟩
        · show ∀ i' t0, Function.update s.tasks i (TPC.inLoader t) i' =
              TPC.inLoader t0 → a ≤ t0 ∧ t0 ≤ b ∧ s.entry = none
          intro i' t0 hT
          by_cases hii : i' = i
          · rw [hii, Function.update_same] at hT
            injection hT with hT0
            rw [← hT0]
            exact ⟨ht1, ht2, hentry⟩
          · rw [Function.update_noteq hii] at hT
            exact hs.loaderProps i' t0 hT
        · show ∀ i', Function.update s.tasks i (TPC.inLoader t) i' = TPC.done →
            s.entry.isSome = true
          intro i' hT
          by_cases hii : i' = i
          · rw [hii, Function.update_same] at hT; exact absurd hT (by simp)
          · rw [Function.update_noteq hii] at hT
            exact hs.doneSome i' hT
    | inLoader t0 =>
      obtain ⟨ha0, hb0, hentry⟩ := hs.loaderProps i t0 htask
      have hone := lockHeld_of_ownT hs.lock (i := i) (by rw [htask]; rfl)
      have huniq := ownSum_one_unique hone.2 (i := i) (by rw [htask]; rfl)
      have hstored : b < (mkStoredEntry () t0 ttl staleTtl).expiresAt := by
        have h1 : ttl ≤ max ttl 0 := le_max_left ttl 0
        have : a + ttl ≤ t0 + max ttl 0 := by linarith
        calc b < a + ttl := hwin
          _ ≤ t0 + max ttl 0 := this
          _ = (mkStoredEntry () t0 ttl staleTtl).expiresAt := rfl
      have hcnt : s.counter = 0 := hs.counterZero hentry
      by_cases hrel : relValid rel s = true
      · rcases rel with _ | x
        · have hstep : stepEv ttl staleTtl (Ev.call i t tr none) s =
              { s with tasks := Function.update s.tasks i TPC.done,
                       counter := s.counter + 1,
                       entry := some (mkStoredEntry () t0 ttl staleTtl),
                       lockHeld := false } := by
            simp only [stepEv, htask, hrel, if_true, applyRelease]
          rw [hstep] at hlock' ⊢
          refine ⟨hlock', hs.refsNil, ?_, ?_, ?_, ?_⟩
          · show ∀ i' t1, Function.update s.tasks i TPC.done i' = TPC.inLoader t1 →
              a ≤ t1 ∧ t1 ≤ b ∧ some (mkStoredEntry () t0 ttl staleTtl) = none
            intro i' t1 hT
            by_cases hii : i' = i
            · rw [hii, Function.update_same] at hT; exact absurd hT (by simp)
            · rw [Function.update_noteq hii] at hT
              exact absurd hT (not_inLoader_of_ownT_zero (huniq.1 i' hii) t1)
          · show ∀ e', some (mkStoredEntry () t0 ttl staleTtl) = some e' →
              s.counter + 1 = 1 ∧ b < e'.expiresAt
            intro e' he'
            injection he' with he''
            rw [← he'']
            exact ⟨by omega, hstored⟩
          · intro h'
            exact absurd h' (by simp)
          · intro i' _
            rfl
        · rcases x with j | jr
          · have hv : s.tasks j = TPC.waitLock := by
              simpa [relValid, decide_eq_true_eq] using hrel
            have hstep : stepEv ttl staleTtl (Ev.call i t tr (some (Sum.inl j))) s =
                { s with tasks := Function.update (Function.update s.tasks i TPC.done) j TPC.ownRecheck,
                         counter := s.counter + 1,
                         entry := some (mkStoredEntry () t0 ttl staleTtl) } := by
              simp only [stepEv, htask, hrel, if_true, applyRelease]
            rw [hstep] at hlock' ⊢
            refine ⟨hlock', hs.refsNil, ?_, ?_, ?_, ?_⟩
            · show ∀ i' t1, Function.update
                  (Function.update s.tasks i TPC.done) j TPC.ownRecheck i' =
                    TPC.inLoader t1 →
                  a ≤ t1 ∧ t1 ≤ b ∧ some (mkStoredEntry () t0 ttl staleTtl) = none
              intro i' t1 hT
              by_cases hij : i' = j
              · rw [hij, Function.update_same] at hT; exact absurd hT (by simp)
              · rw [Function.update_noteq hij] at hT
                by_cases hii : i' = i
                · rw [hii, Function.update_same] at hT; exact absurd hT (by simp)
                · rw [Function.update_noteq hii] at hT
                  exact absurd hT (not_inLoader_of_ownT_zero (huniq.1 i' hii) t1)
            · show ∀ e', some (mkStoredEntry () t0 ttl staleTtl) = some e' →
                s.counter + 1 = 1 ∧ b < e'.expiresAt
              intro e' he'
              injection he' with he''
              rw [← he'']
              exact ⟨by omega, hstored⟩
            · intro h'
              exact absurd h' (by simp)
            · intro i' _
              rfl
          · exfalso
            have : relValid (some (Sum.inr jr)) s = false := by
              simp [relValid, hs.refsNil]
            rw [this] at hrel
            exact Bool.noConfusion hrel
      · have hrel' : relValid rel s = false := by simpa using hrel
        have hstep : stepEv ttl staleTtl (Ev.call i t tr rel) s = s := by
          simp only [stepEv, htask, hrel', Bool.false_eq_true, if_false]
        rw [hstep]
        exact hs

theorem lockInv_init (n : ℕ) : LockInv (init n) := by
  unfold LockInv ownSum init
  simp [ownT]

theorem inv_init (a b : ℚ) (n : ℕ) : Inv a b (init n) := by
  refine ⟨lockInv_init n, rfl, ?_, ?_, ?_, ?_⟩
  · intro i t0 hT
    exact absurd hT (by simp [init])
  · intro e he
    exact absurd he (by simp [init])
  · intro _
    rfl
  · intro i hT
    exact absurd hT (by simp [init])

theorem lockInv_run (ttl staleTtl : ℚ) : ∀ (evs : List (Ev n)) (s : St n),
    LockInv s → LockInv (run ttl staleTtl evs s) := by
  intro evs
  induction evs with
  | nil => intro s hs; exact hs
  | cons ev evs ih =>
    intro s hs
    simp only [run, List.foldl_cons]
    exact ih _ (lockInv_step ttl staleTtl ev s hs)

theorem inv_run (a b ttl staleTtl : ℚ) (hwin : b < a + ttl) :
    ∀ (evs : List (Ev n)), (∀ ev ∈ evs, EvWindow a b ev) →
      ∀ (s : St n), Inv a b s → Inv a b (run ttl staleTtl evs s) := by
  intro evs
  induction evs with
  | nil => intro _ s hs; exact hs
  | cons ev evs ih =>
    intro hall s hs
    simp only [run, List.foldl_cons]
    exact ih (fun e he => hall e (List.mem_cons_of_mem ev he)) _
      (inv_step a b ttl staleTtl hwin ev (hall ev (List.mem_cons_self ev evs)) s hs)

/-- **C1.** Single-flight for `_TTLCache.get_or_load` on one uncached key:
(1) under *every* cooperative schedule (any interleaving, any clock values,
stale-path refresh tasks included) at most one loader invocation is in
flight at any reachable state — the per-key `asyncio.Lock` serialises them;
(2) for `N` concurrent `get_or_load` callers launched on the uncached key,
if every step of the schedule happens within a time window shorter than
`ttl` (the loader sleeps, but less than `ttl`), then once all callers have
completed the loader has run exactly once: the counter it increments equals 1. -/
theorem getOrLoad_single_flight :
    (∀ (n : ℕ) (ttl staleTtl : ℚ) (evs : List (Ev n)),
      loaderCount (run ttl staleTtl evs (init n)) ≤ 1) ∧
    (∀ (n : ℕ) (a b ttl staleTtl : ℚ) (evs : List (Ev n)),
      b < a + ttl → (∀ ev ∈ evs, EvWindow a b ev) →
      (∀ i, (run ttl staleTtl evs (init n)).tasks i = TPC.done) →
      0 < n → (run ttl staleTtl evs (init n)).counter = 1) := by
  constructor
  · intro n ttl staleTtl evs
    have h := lockInv_run ttl staleTtl evs (init n) (lockInv_init n)
    have h2 := loaderCount_le_ownSum (run ttl staleTtl evs (init n))
    unfold LockInv at h
    cases hl : (run ttl staleTtl evs (init n)).lockHeld with
    | true => rw [hl] at h; simp only [Bool.toNat_true] at h; omega
    | false => rw [hl] at h; simp only [Bool.toNat_false] at h; omega
  · intro n a b ttl staleTtl evs hwin hall hdone hn
    have hinv := inv_run a b ttl staleTtl hwin evs hall (init n) (inv_init a b n)
    have hsome := hinv.doneSome ⟨0, hn⟩ (hdone ⟨0, hn⟩)
    cases he : (run ttl staleTtl evs (init n)).entry with
    | none => rw [he] at hsome; exact absurd hsome (by simp)
    | some e => exact (hinv.entryProps e he).1

end SF

namespace SF

unseal Rat.add Rat.sub Rat.mul Rat.inv in
/-- Witness for `getOrLoad_single_flight`: a single caller scheduled twice
(first step acquires the lock and enters the loader, second step completes
the load) with all clocks at 0 and `ttl = 1`; at the end the caller is done
and the loader ran exactly once. -/
theorem getOrLoad_single_flight_witness :
    loaderCount (run 1 0
      ([Ev.call 0 0 0 none, Ev.call 0 0 0 none] : List (Ev 1)) (init 1)) ≤ 1 ∧
    (run 1 0 ([Ev.call 0 0 0 none, Ev.call 0 0 0 none] : List (Ev 1))
      (init 1)).counter = 1 :=
  ⟨getOrLoad_single_flight.1 1 1 0 [Ev.call 0 0 0 none, Ev.call 0 0 0 none],
   getOrLoad_single_flight.2 1 0 0 1 0 [Ev.call 0 0 0 none, Ev.call 0 0 0 none]
     (by decide) (by decide) (by decide) (by decide)⟩

end SF

namespace SF

unseal Rat.add Rat.sub Rat.mul Rat.inv in
/-- **C1 (counterexample).** Without a bound relating the loader's sleep to
`ttl`, the counter can exceed 1: with `ttl = 1`, caller 0 starts the loader
at time 0 and stores an entry expiring at 1; caller 1, woken from the lock
queue, re-checks at time 2 (the loader slept past the ttl), finds the entry
expired, and runs the loader again.  Both callers complete and the counter
is 2 — the loader invocations were serialized by the lock, but not unique. -/
theorem getOrLoad_counter_two_past_ttl :
    (∀ i, (run 1 0
      ([Ev.call 0 0 0 none, Ev.call 1 0 0 none,
        Ev.call 0 0 0 (some (Sum.inl 1)), Ev.call 1 2 2 none,
        Ev.call 1 2 2 none] : List (Ev 2)) (init 2)).tasks i = TPC.done) ∧
    (run 1 0
      ([Ev.call 0 0 0 none, Ev.call 1 0 0 none,
        Ev.call 0 0 0 (some (Sum.inl 1)), Ev.call 1 2 2 none,
        Ev.call 1 2 2 none] : List (Ev 2)) (init 2)).counter = 2 := by
  refine ⟨by decide, by decide⟩

end SF
